import Mathlib

/-!
# UGREEN camera HTTP driver (`src/iot_driver_copilot/ugree/driver.cpp`)

A shallow embedding of the driver's camera state machine, its JSON response
encoder, its request-line reader and its router, followed by the properties
proved about them.

Conventions of the embedding.

* A `char` is a byte (`UInt8`) and a `std::string` is a list of bytes, so
  `size()` is `List.length` and strings may hold any byte, NUL included.
* The process-wide variables `camera_state` and `last_error` are the two
  fields of `CameraState`; a function of the source that touches them takes
  the state and returns the new state next to its result.
* A connection (the `int client` descriptor) is a `Client` record: what the
  peer delivers to the one `recv` call, and the log of the `send` and `close`
  calls made on it.
* In string literals the braces of the JSON texts are written by their hex
  escapes, `\x7b` for the opening and `\x7d` for the closing brace.
-/

namespace Driver

/-! ## Strings -/

/-- One `char` of the program. -/
abbrev Byte := UInt8

/-- A `std::string`: a finite sequence of bytes. -/
abbrev Str := List Byte

/-- The bytes of a string literal of the source (all of them are ASCII). -/
def lit (s : String) : Str := s.toList.map Char.toUInt8

/-- Three-way comparison of `std::string::compare`: bytewise on the common
prefix (bytes compared as unsigned), the shorter string first on a tie. -/
def strCompare : Str → Str → Ordering
  | [], [] => Ordering.eq
  | [], _ :: _ => Ordering.lt
  | _ :: _, [] => Ordering.gt
  | a :: as, b :: bs =>
    if a < b then Ordering.lt
    else if b < a then Ordering.gt
    else strCompare as bs

/-- The `operator<` of `std::string`, the key order of `std::map`. -/
def strLess (a b : Str) : Bool := decide (strCompare a b = Ordering.lt)

/-- Output of `ostream << size_t`: the decimal digits of the number. -/
def decimal (n : Nat) : Str := lit (Nat.repr n)

/-! ## `std::map<std::string, std::string>` -/

/-- Insertion of `std::map::insert` on the in-order entry sequence: the new
pair goes before the first entry with a greater key; when an entry with an
equivalent key is present the map is left as it is. -/
def insertEntry (kv : Str × Str) : List (Str × Str) → List (Str × Str)
  | [] => [kv]
  | e :: es =>
    if strLess kv.1 e.1 then kv :: e :: es
    else if strLess e.1 kv.1 then e :: insertEntry kv es
    else e :: es

/-- Key order of the entries of a map: strictly ascending. -/
def KeysAscending (es : List (Str × Str)) : Prop :=
  es.Pairwise (fun a b => strLess a.1 b.1 = true)

/-- A `std::map<std::string, std::string>`, given by the sequence of entries
its iterator visits, in strictly ascending key order. -/
structure StdMap where
  entries : List (Str × Str)
  ordered : KeysAscending entries

/-! The key order is transitive and `insertEntry` keeps the entries ascending;
`StdMap.insert` below needs both facts. -/

/-- Two bytes neither of which is below the other are equal. -/
theorem byte_eq_of_not_lt {a b : Byte} (h1 : ¬ a < b) (h2 : ¬ b < a) : a = b := by
  apply UInt8.toNat.inj
  simp only [UInt8.lt_def, BitVec.lt_def] at h1 h2
  simp only [UInt8.toNat]
  omega

/-- Transitivity of the key order. -/
theorem strCompare_lt_trans : ∀ (a b c : Str),
    strCompare a b = Ordering.lt → strCompare b c = Ordering.lt →
    strCompare a c = Ordering.lt
  | [], [], _, h, _ => by simp [strCompare] at h
  | [], _ :: _, [], _, h => by simp [strCompare] at h
  | [], _ :: _, _ :: _, _, _ => by simp [strCompare]
  | _ :: _, [], _, h, _ => by simp [strCompare] at h
  | _ :: _, _ :: _, [], _, h => by simp [strCompare] at h
  | x :: xs, y :: ys, z :: zs, h1, h2 => by
    simp only [strCompare] at h1 h2 ⊢
    by_cases hxy : x < y
    · by_cases hyz : y < z
      · simp [UInt8.lt_trans hxy hyz]
      · simp only [hyz, if_false] at h2
        by_cases hzy : z < y
        · simp [hzy] at h2
        · have hyz2 : y = z := byte_eq_of_not_lt hyz hzy
          subst hyz2
          simp [hxy]
    · simp only [hxy, if_false] at h1
      by_cases hyx : y < x
      · simp [hyx] at h1
      · simp only [hyx, if_false] at h1
        have hxy2 : x = y := byte_eq_of_not_lt hxy hyx
        subst hxy2
        by_cases hxz : x < z
        · simp [hxz]
        · simp only [hxz, if_false] at h2 ⊢
          by_cases hzx : z < x
          · simp [hzx] at h2
          · simp only [hzx, if_false] at h2 ⊢
            exact strCompare_lt_trans xs ys zs h1 h2

theorem strLess_trans {a b c : Str} (h1 : strLess a b = true)
    (h2 : strLess b c = true) : strLess a c = true := by
  unfold strLess at h1 h2 ⊢
  exact decide_eq_true (strCompare_lt_trans a b c (of_decide_eq_true h1) (of_decide_eq_true h2))

/-- Inserting into an ascending entry sequence keeps every key relation that
held against all old entries and the new one. -/
theorem insertEntry_forall (kv : Str × Str) (P : Str × Str → Prop) :
    ∀ (es : List (Str × Str)), P kv → (∀ e ∈ es, P e) →
      ∀ e ∈ insertEntry kv es, P e
  | [], hkv, _ => by
    intro e he
    simp only [insertEntry, List.mem_singleton] at he
    exact he ▸ hkv
  | x :: xs, hkv, hall => by
    intro e he
    simp only [insertEntry] at he
    split at he
    · rcases List.mem_cons.mp he with h | h
      · exact h ▸ hkv
      · exact hall e h
    · split at he
      · rcases List.mem_cons.mp he with h | h
        · exact h ▸ hall x (List.mem_cons_self _ _)
        · exact insertEntry_forall kv P xs hkv
            (fun e2 h2 => hall e2 (List.mem_cons_of_mem _ h2)) e h
      · exact hall e he

/-- The entry sequence stays strictly ascending under `insertEntry`. -/
theorem insertEntry_ordered (kv : Str × Str) :
    ∀ (es : List (Str × Str)), KeysAscending es → KeysAscending (insertEntry kv es)
  | [], _ => by simp [insertEntry, KeysAscending]
  | x :: xs, h => by
    have hx := List.pairwise_cons.mp h
    simp only [insertEntry]
    split
    · rename_i hlt
      refine List.pairwise_cons.mpr ⟨?_, h⟩
      intro e he
      rcases List.mem_cons.mp he with h1 | h1
      · exact h1 ▸ hlt
      · exact strLess_trans hlt (hx.1 e h1)
    · split
      · rename_i hlt
        refine List.pairwise_cons.mpr ⟨?_, insertEntry_ordered kv xs hx.2⟩
        exact insertEntry_forall kv (fun e => strLess x.1 e.1 = true) xs hlt hx.1
      · exact h

/-- The empty map. -/
def StdMap.empty : StdMap := ⟨[], List.Pairwise.nil⟩

/-- Member `insert` of `std::map`. -/
def StdMap.insert (m : StdMap) (kv : Str × Str) : StdMap :=
  ⟨insertEntry kv m.entries, insertEntry_ordered kv m.entries m.ordered⟩

/-- Construction of a map from a braced initializer list: the pairs are
inserted one after the other, from the first to the last. -/
def StdMap.ofList (init : List (Str × Str)) : StdMap :=
  init.foldl StdMap.insert StdMap.empty

/-! ## The program -/

/-- The body of the loop of `jsonResponse`, run for one entry `kv` on the
stream `oss` and the flag `first`. -/
def jsonStep (acc : Str × Bool) (kv : Str × Str) : Str × Bool :=
  let (oss, first) := acc
  let oss := if !first then oss ++ lit "," else oss
  let first := false
  let oss := oss ++ lit "\"" ++ kv.1 ++ lit "\":\"" ++ kv.2 ++ lit "\""
  (oss, first)

/-- The `jsonResponse` function: an opening brace, then the loop over the
entries of the map in iteration order, then a closing brace. -/
def jsonResponse (fields : StdMap) : Str :=
  let oss : Str := []
  let oss := oss ++ lit "\x7b"
  let first := true
  let (oss, _) := fields.entries.foldl jsonStep (oss, first)
  let oss := oss ++ lit "\x7d"
  oss

/-- The `CameraStatus` enumeration. -/
inductive CameraStatus where
  | STOPPED
  | RUNNING
  | ERROR
  deriving DecidableEq, Repr

/-- The process-wide camera variables `camera_state` and `last_error`. -/
structure CameraState where
  camera_state : CameraStatus
  last_error : Str
  deriving DecidableEq, Repr

/-- State at process start: `camera_state(CameraStatus::STOPPED)` and a
default-constructed (empty) `last_error`. -/
def initialState : CameraState := ⟨CameraStatus.STOPPED, []⟩

/-- The `startCamera` function: sets `camera_state` to `RUNNING`, clears
`last_error`, returns `true`. -/
def startCamera (g : CameraState) : Bool × CameraState :=
  let g := { g with camera_state := CameraStatus.RUNNING }
  let g := { g with last_error := [] }
  (true, g)

/-- The `getCameraStatusJson` function. -/
def getCameraStatusJson (g : CameraState) : Str × CameraState :=
  let status_str : Str :=
    match g.camera_state with
    | CameraStatus.RUNNING => lit "running"
    | CameraStatus.STOPPED => lit "stopped"
    | CameraStatus.ERROR => lit "error"
  let error_str : Str := if !g.last_error.isEmpty then g.last_error else []
  (jsonResponse (StdMap.ofList [(lit "status", status_str), (lit "error", error_str)]), g)

/-! ## Connections and streams -/

/-- What the peer makes available to the `recv` call of a connection: a
failed read, or the bytes pending at the time of the call (none when the peer
has closed its side). -/
inductive Incoming where
  | failure
  | data (bytes : Str)
  deriving DecidableEq, Repr

/-- An effect of the handler on a connection: a `send` call with its
payload, or the `close` call. -/
inductive Event where
  | sent (payload : Str)
  | closed
  deriving DecidableEq, Repr

/-- A connection, the `int client` of the source: what the peer delivers, and
the `send` and `close` calls made on it so far, oldest first. -/
structure Client where
  incoming : Incoming
  events : List Event
  deriving DecidableEq, Repr

/-- The `recv(client, buf, len, 0)` call: the returned count and the bytes
stored at the start of `buf`. A failed read returns `-1`; otherwise the first
`len` pending bytes are stored and their number is returned (`0` when the
peer has closed). -/
def recv (client : Client) (len : Nat) : Int × Str :=
  match client.incoming with
  | Incoming.failure => (-1, [])
  | Incoming.data bytes => (((bytes.take len).length : Nat), bytes.take len)

/-- The `send(client, data, size, 0)` call: records the payload. -/
def send (client : Client) (payload : Str) : Client :=
  { client with events := client.events ++ [Event.sent payload] }

/-- The `close(client)` call. -/
def close (client : Client) : Client :=
  { client with events := client.events ++ [Event.closed] }

/-- Conversion of a NUL-terminated `char` buffer to `std::string`: the bytes
before the first NUL. -/
def cString (buf : Str) : Str := buf.takeWhile (fun c => c != 0)

/-- White space of the classic locale, as `std::isspace`: space, `\t`, `\n`,
`\v`, `\f`, `\r`. -/
def isspace (c : Byte) : Bool := c == 32 || (9 ≤ c && c ≤ 13)

/-- An input string stream: the characters not yet read and the fail bit. -/
structure IStream where
  rest : Str
  fail : Bool
  deriving DecidableEq, Repr

/-- The `std::getline(req, line)` call with the delimiter `\n`: fails when no
character is left; otherwise `line` receives the characters before the first
`\n`, which is consumed. The `Option` is `none` exactly when the stream
converts to `false` after the call. -/
def getline (req : IStream) : IStream × Option Str :=
  if req.fail || req.rest.isEmpty then ({ req with fail := true }, none)
  else
    ({ req with rest := (req.rest.dropWhile (fun c => c != 10)).drop 1 },
      some (req.rest.takeWhile (fun c => c != 10)))

/-- The `stream >> str` extraction for `std::string`: on a failed stream `str` keeps its
value; otherwise leading white space is skipped, and when characters remain
`str` receives those up to the next white space, else the fail bit is set and
`str` keeps its value. -/
def extract (l : IStream) (str : Str) : IStream × Str :=
  if l.fail then (l, str)
  else
    let skipped := l.rest.dropWhile isspace
    if skipped.isEmpty then ({ rest := [], fail := true }, str)
    else
      ({ rest := skipped.dropWhile (fun c => !isspace c), fail := false },
        skipped.takeWhile (fun c => !isspace c))

/-! ## The connection handler -/

/-- The `sendHttp` function: assembles the response text and sends it. -/
def sendHttp (client : Client) (code contentType body : Str) : Client :=
  let resp : Str := []
  let resp := resp ++ lit "HTTP/1.1 " ++ code ++ lit "\r\n"
  let resp := resp ++ lit "Content-Type: " ++ contentType ++ lit "\r\n"
  let resp := resp ++ lit "Content-Length: " ++ decimal body.length ++ lit "\r\n"
  let resp := resp ++ lit "Connection: close\r\n"
  let resp := resp ++ lit "\r\n"
  let resp := resp ++ body
  let respStr := resp
  send client respStr

/-- First part of `handleRequest` (source lines 109 to 117): the single
`recv` into `buf`, the first line of the received text and its first two
white-space separated words, `method` and `path`. The result is `none` on the
two paths that close the connection and return at once: a count `n <= 0`, and
a failed `getline`. -/
def readRequest (client : Client) : Option (Str × Str) :=
  let (n, buf) := recv client (4096 - 1)
  if n ≤ 0 then none
  else
    let req : IStream := { rest := cString buf, fail := false }
    let method : Str := []
    let path : Str := []
    match getline req with
    | (_, none) => none
    | (_, some line) =>
      let l : IStream := { rest := line, fail := false }
      let (l, method) := extract l method
      let (_, path) := extract l path
      some (method, path)

/-- Second part of `handleRequest` (source lines 119 to 142): the three
routes. -/
def route (client : Client) (method path : Str) (g : CameraState) :
    Client × CameraState :=
  if path == lit "/camera/start" && method == lit "POST" then
    let (ok, g) := startCamera g
    let body := jsonResponse (StdMap.ofList
      [(lit "success", if ok then lit "true" else lit "false"),
       (lit "message", if ok then lit "Camera started" else lit "Failed to start camera")])
    let client := sendHttp client (lit "200 OK") (lit "application/json") body
    (close client, g)
  else if path == lit "/camera/status" && method == lit "GET" then
    let (body, g) := getCameraStatusJson g
    let client := sendHttp client (lit "200 OK") (lit "application/json") body
    (close client, g)
  else
    let client := sendHttp client (lit "404 Not Found") (lit "application/json")
      (lit "\x7b\"error\":\"Not Found\"\x7d")
    (close client, g)

/-- The `handleRequest` function: serves one connection. -/
def handleRequest (client : Client) (g : CameraState) : Client × CameraState :=
  match readRequest client with
  | none => (close client, g)
  | some (method, path) => route client method path g

/-! ## Reference renderings used in the statements -/

/-- Response text in the layout the interface description gives: status
line, `Content-Type`, `Content-Length` with the decimal body length,
`Connection: close`, a blank line, the body. -/
def httpMessage (code contentType body : Str) : Str :=
  lit "HTTP/1.1 " ++ code ++ lit "\r\n" ++ lit "Content-Type: " ++ contentType ++ lit "\r\n"
    ++ lit "Content-Length: " ++ decimal body.length ++ lit "\r\n"
    ++ lit "Connection: close\r\n" ++ lit "\r\n" ++ body

/-- A response text carries the status `code` when it starts with the status
line `HTTP/1.1 <code>` followed by CR LF. -/
def HasStatus (resp code : Str) : Prop :=
  (lit "HTTP/1.1 " ++ code ++ lit "\r\n") <+: resp

/-- One field of a JSON object as the encoder writes it: the key and the
value each between double quotes, a colon between them. -/
def renderField (kv : Str × Str) : Str :=
  lit "\"" ++ kv.1 ++ lit "\":\"" ++ kv.2 ++ lit "\""

/-- Name the status handler reports for a camera status. -/
def statusName : CameraStatus → Str
  | CameraStatus.STOPPED => lit "stopped"
  | CameraStatus.RUNNING => lit "running"
  | CameraStatus.ERROR => lit "error"

/-- The pairs of method and path that have a route. -/
def IsRoute (method path : Str) : Prop :=
  (method = lit "POST" ∧ path = lit "/camera/start") ∨
  (method = lit "GET" ∧ path = lit "/camera/status")

instance (method path : Str) : Decidable (IsRoute method path) := by
  unfold IsRoute; infer_instance

/-- Results and final state of `n` calls of `startCamera` made one after the
other, the order in which the lock serialises them. -/
def startCalls : Nat → CameraState → List Bool × CameraState
  | 0, g => ([], g)
  | n + 1, g =>
    let (ok, g1) := startCamera g
    let (oks, g2) := startCalls n g1
    (ok :: oks, g2)

/-! ## Runs of the server and words of a request line -/

/-- The camera state after the connections `clients` have been handled one
after the other, starting in state `g`. -/
def serve : List Client → CameraState → CameraState
  | [], g => g
  | client :: rest, g => serve rest (handleRequest client g).2

/-- The bytes the single `recv` call of `handleRequest` stores in `buf`. -/
def received (client : Client) : Str := (recv client (4096 - 1)).2

/-- First line of a byte sequence: the bytes before the first newline. -/
def firstLine (bytes : Str) : Str := bytes.takeWhile (fun c => c != 10)

/-- The white-space separated words of a text: the non-empty pieces between
white-space bytes. -/
def words (text : Str) : List Str :=
  (text.splitOnP isspace).filter (fun w => !w.isEmpty)

/-- First word of a text, empty when there is none: the bytes after the
leading white space up to the next white space. -/
def firstWord (text : Str) : Str :=
  (text.dropWhile isspace).takeWhile (fun c => !isspace c)

/-- What follows the first word of a text. -/
def afterFirstWord (text : Str) : Str :=
  (text.dropWhile isspace).dropWhile (fun c => !isspace c)

/-! ## JSON texts

A JSON text (RFC 8259) is encoded in UTF-8. A text counts as a valid JSON
object with string members when it is well-formed UTF-8 (RFC 3629), checked
by `wellFormedUtf8`, and has a reading by `decodeObject`, the reference
reader for objects all of whose member values are strings. The reader works
on bytes: an unescaped character is any byte from `0x20` up other than the
quotation mark and the reverse solidus (bytes from `0x80` up are taken as
parts of unescaped characters; their UTF-8 form is what `wellFormedUtf8`
checks), and a `\u` escape yields the UTF-8 bytes of its code point. A text
that is not such an object has no reading. -/

/-- State of the UTF-8 check between two bytes: at a character boundary
(`start`), inside a character with one, two or three continuation bytes to
come (`tail1`, `tail2`, `tail3`), right after a lead byte that restricts the
next byte (`afterE0`, `afterED`, `afterF0`, `afterF4`), or failed (`bad`). -/
inductive Utf8State where
  | start
  | tail1
  | tail2
  | tail3
  | afterE0
  | afterED
  | afterF0
  | afterF4
  | bad
  deriving DecidableEq, Repr

/-- One byte of the UTF-8 check, after the byte sequences of RFC 3629:
`00-7F`; `C2-DF` tail; `E0` `A0-BF` tail; `E1-EC` tail tail; `ED` `80-9F`
tail; `EE-EF` tail tail; `F0` `90-BF` tail tail; `F1-F3` tail tail tail;
`F4` `80-8F` tail tail; where tail is `80-BF`. -/
def utf8Step (st : Utf8State) (b : Byte) : Utf8State :=
  match st with
  | Utf8State.start =>
    if b < 0x80 then Utf8State.start
    else if 0xC2 ≤ b && b ≤ 0xDF then Utf8State.tail1
    else if b == 0xE0 then Utf8State.afterE0
    else if b == 0xED then Utf8State.afterED
    else if 0xE1 ≤ b && b ≤ 0xEF then Utf8State.tail2
    else if b == 0xF0 then Utf8State.afterF0
    else if 0xF1 ≤ b && b ≤ 0xF3 then Utf8State.tail3
    else if b == 0xF4 then Utf8State.afterF4
    else Utf8State.bad
  | Utf8State.tail1 => if 0x80 ≤ b && b ≤ 0xBF then Utf8State.start else Utf8State.bad
  | Utf8State.tail2 => if 0x80 ≤ b && b ≤ 0xBF then Utf8State.tail1 else Utf8State.bad
  | Utf8State.tail3 => if 0x80 ≤ b && b ≤ 0xBF then Utf8State.tail2 else Utf8State.bad
  | Utf8State.afterE0 => if 0xA0 ≤ b && b ≤ 0xBF then Utf8State.tail1 else Utf8State.bad
  | Utf8State.afterED => if 0x80 ≤ b && b ≤ 0x9F then Utf8State.tail1 else Utf8State.bad
  | Utf8State.afterF0 => if 0x90 ≤ b && b ≤ 0xBF then Utf8State.tail2 else Utf8State.bad
  | Utf8State.afterF4 => if 0x80 ≤ b && b ≤ 0x8F then Utf8State.tail2 else Utf8State.bad
  | Utf8State.bad => Utf8State.bad

/-- A byte string is well-formed UTF-8: the check ends at a character
boundary. -/
def wellFormedUtf8 (s : Str) : Bool := s.foldl utf8Step Utf8State.start == Utf8State.start

/-- White space of JSON: space, horizontal tab, line feed, carriage return. -/
def jsonWs (c : Byte) : Bool := c == 0x20 || c == 0x09 || c == 0x0A || c == 0x0D

/-- Value of a hexadecimal digit, either case. -/
def hexDigit (c : Byte) : Option Nat :=
  if 0x30 ≤ c && c ≤ 0x39 then some (c.toNat - 0x30)
  else if 0x41 ≤ c && c ≤ 0x46 then some (c.toNat - 0x41 + 10)
  else if 0x61 ≤ c && c ≤ 0x66 then some (c.toNat - 0x61 + 10)
  else none

/-- Value of four hexadecimal digits. -/
def hex4 (a b c d : Byte) : Option Nat :=
  match hexDigit a, hexDigit b, hexDigit c, hexDigit d with
  | some x, some y, some z, some w => some (((x * 16 + y) * 16 + z) * 16 + w)
  | _, _, _, _ => none

/-- UTF-8 form of a code point. -/
def utf8 (cp : Nat) : Str :=
  if cp < 0x80 then [UInt8.ofNat cp]
  else if cp < 0x800 then
    [UInt8.ofNat (0xC0 + cp / 0x40), UInt8.ofNat (0x80 + cp % 0x40)]
  else if cp < 0x10000 then
    [UInt8.ofNat (0xE0 + cp / 0x1000), UInt8.ofNat (0x80 + cp / 0x40 % 0x40),
      UInt8.ofNat (0x80 + cp % 0x40)]
  else
    [UInt8.ofNat (0xF0 + cp / 0x40000), UInt8.ofNat (0x80 + cp / 0x1000 % 0x40),
      UInt8.ofNat (0x80 + cp / 0x40 % 0x40), UInt8.ofNat (0x80 + cp % 0x40)]

/-- Reading of a `\u` escape, from the byte after the `u`: four hexadecimal
digits; a high surrogate must be followed by a `\u` escape holding a low
surrogate, and the pair yields one code point; a low surrogate alone has no
reading. The result is the bytes read and the rest of the text. -/
def decodeUnicode : Str → Option (Str × Str)
  | a :: b :: c :: d :: rest =>
    match hex4 a b c d with
    | none => none
    | some hi =>
      if 0xD800 ≤ hi ∧ hi < 0xDC00 then
        match rest with
        | bs :: u :: e :: f :: g :: h :: rest2 =>
          if bs == 0x5C && u == 0x75 then
            match hex4 e f g h with
            | none => none
            | some lo =>
              if 0xDC00 ≤ lo ∧ lo < 0xE000 then
                some (utf8 (0x10000 + (hi - 0xD800) * 0x400 + (lo - 0xDC00)), rest2)
              else none
          else none
        | _ => none
      else if 0xDC00 ≤ hi ∧ hi < 0xE000 then none
      else some (utf8 hi, rest)
  | _ => none

/-- Reading of an escape, from the byte after the reverse solidus. -/
def decodeEscape : Str → Option (Str × Str)
  | [] => none
  | c :: rest =>
    if c == 0x22 then some ([0x22], rest)
    else if c == 0x5C then some ([0x5C], rest)
    else if c == 0x2F then some ([0x2F], rest)
    else if c == 0x62 then some ([0x08], rest)
    else if c == 0x66 then some ([0x0C], rest)
    else if c == 0x6E then some ([0x0A], rest)
    else if c == 0x72 then some ([0x0D], rest)
    else if c == 0x74 then some ([0x09], rest)
    else if c == 0x75 then decodeUnicode rest
    else none

/-- Reading of the characters of a JSON string, from the byte after the
opening quotation mark up to the closing one: the string denoted and the text
after the closing quotation mark. The first argument bounds the number of
characters read. -/
def decodeChars : Nat → Str → Option (Str × Str)
  | 0, _ => none
  | _ + 1, [] => none
  | fuel + 1, c :: rest =>
    if c == 0x22 then some ([], rest)
    else if c == 0x5C then
      match decodeEscape rest with
      | none => none
      | some (d, rest2) =>
        match decodeChars fuel rest2 with
        | none => none
        | some (ds, rest3) => some (d ++ ds, rest3)
    else if c < 0x20 then none
    else
      match decodeChars fuel rest with
      | none => none
      | some (ds, rest2) => some (c :: ds, rest2)

/-- Reading of a JSON string at the start of a text. -/
def decodeString : Str → Option (Str × Str)
  | [] => none
  | c :: rest => if c == 0x22 then decodeChars rest.length rest else none

/-- Reading of one member of an object, `string : string` with optional white
space around the three parts. -/
def decodeMember (s : Str) : Option ((Str × Str) × Str) :=
  match decodeString (s.dropWhile jsonWs) with
  | none => none
  | some (name, r1) =>
    match r1.dropWhile jsonWs with
    | [] => none
    | c :: r2 =>
      if c == 0x3A then
        match decodeString (r2.dropWhile jsonWs) with
        | none => none
        | some (value, r3) => some ((name, value), r3.dropWhile jsonWs)
      else none

/-- Reading of the members of an object up to the closing brace, after which
only white space may follow. The first argument bounds the number of
members. -/
def decodeMembers : Nat → Str → Option (List (Str × Str))
  | 0, _ => none
  | fuel + 1, s =>
    match decodeMember s with
    | none => none
    | some (kv, r) =>
      match r with
      | [] => none
      | c :: r2 =>
        if c == 0x7D then (if (r2.dropWhile jsonWs).isEmpty then some [kv] else none)
        else if c == 0x2C then
          match decodeMembers fuel r2 with
          | none => none
          | some kvs => some (kv :: kvs)
        else none

/-- Reading of a JSON text that is an object with string members: its members
in the order of the text, or `none` when the text is not such an object. -/
def decodeObject (s : Str) : Option (List (Str × Str)) :=
  match s.dropWhile jsonWs with
  | [] => none
  | c :: r =>
    if c == 0x7B then
      match r.dropWhile jsonWs with
      | [] => none
      | d :: r2 =>
        if d == 0x7D then (if (r2.dropWhile jsonWs).isEmpty then some [] else none)
        else decodeMembers s.length (d :: r2)
    else none

/-- A byte that may stand unescaped in a JSON string: not below `0x20`, not
the quotation mark, not the reverse solidus. -/
def plainByte (c : Byte) : Bool := !(c < 0x20) && c != 0x22 && c != 0x5C

/-- A lower bound for the number of bytes of JSON string text that denote a
string: one byte for each of its bytes, with the quotation mark and the
reverse solidus, which cannot stand unescaped, counted twice. -/
def textCost (d : Str) : Nat := d.length + d.countP (fun c => c == 0x22 || c == 0x5C)

/-- A lower bound for the length of the text of an object member together
with the comma or brace that ends it: the two strings, four quotation marks,
a colon and the closing byte. -/
def memberCost (kv : Str × Str) : Nat := textCost kv.1 + textCost kv.2 + 6

/-- A map whose keys and values hold only bytes that may stand unescaped in a
JSON string: no quotation mark, no reverse solidus, no byte below `0x20`. -/
def PlainFields (fields : StdMap) : Prop :=
  ∀ kv ∈ fields.entries, kv.1.all plainByte = true ∧ kv.2.all plainByte = true

instance (fields : StdMap) : Decidable (PlainFields fields) := by
  unfold PlainFields; infer_instance

/-- A map whose keys and values are well-formed UTF-8. -/
def Utf8Fields (fields : StdMap) : Prop :=
  ∀ kv ∈ fields.entries, wellFormedUtf8 kv.1 = true ∧ wellFormedUtf8 kv.2 = true

instance (fields : StdMap) : Decidable (Utf8Fields fields) := by
  unfold Utf8Fields; infer_instance

/-! ## Sample inputs -/

/-- Sample connection: a request for the status path with a query string. -/
def queryClient : Client :=
  { incoming := Incoming.data (lit "GET /camera/status?x=1 HTTP/1.1\r\nHost: cam\r\n\r\n"),
    events := [] }

/-- Sample connection: a well-formed start request. -/
def startClient : Client :=
  { incoming := Incoming.data (lit "POST /camera/start HTTP/1.1\r\nHost: cam\r\n\r\n"),
    events := [] }

/-- Sample connection: a well-formed status request. -/
def statusClient : Client :=
  { incoming := Incoming.data (lit "GET /camera/status HTTP/1.1\r\nHost: cam\r\n\r\n"),
    events := [] }

/-- Sample connection: one NUL byte is received. -/
def nulClient : Client := { incoming := Incoming.data [0], events := [] }

/-- Sample connection: a NUL byte in front of a status request. -/
def nulFirstClient : Client :=
  { incoming := Incoming.data ([0] ++ lit "GET /camera/status HTTP/1.1\r\n\r\n"), events := [] }

/-- Sample connection: a space and a NUL byte in front of a status request. -/
def spaceNulClient : Client :=
  { incoming := Incoming.data ([32, 0] ++ lit "GET /camera/status HTTP/1.1\r\n\r\n"),
    events := [] }

/-- Sample connection: a status request with tabs, repeated spaces, another
version, an extra word and a body. -/
def looseStatusClient : Client :=
  { incoming := Incoming.data
      (lit "\t GET   /camera/status\tHTTP/1.0 extra \r\nX-Other: 1\r\n\r\nbody"),
    events := [] }

/-- Sample map: one field whose value holds two reverse solidus bytes. -/
def backslashFields : StdMap := StdMap.ofList [(lit "error", lit "C:\\\\tmp")]

/-- Sample map: one field whose value holds quotation marks. -/
def quoteFields : StdMap := StdMap.ofList [(lit "error", lit "a\",\"z\":\"b")]

/-- Sample map: one field whose value holds one quotation mark. -/
def oneQuoteFields : StdMap := StdMap.ofList [(lit "error", lit "say \"hi")]

/-- Sample map: one field whose value is the single byte `0xFF`, which
occurs in no UTF-8 text. -/
def invalidByteFields : StdMap := StdMap.ofList [(lit "error", [0xFF])]

/-- Sample map: one field whose value is a two-byte UTF-8 character. -/
def accentFields : StdMap := StdMap.ofList [(lit "error", [0xC3, 0xA9])]

/-- Sample map: the fields of the answer to a start request. -/
def startFields : StdMap :=
  StdMap.ofList [(lit "success", lit "true"), (lit "message", lit "Camera started")]

/-- Sample map: the field of the not-found answer. -/
def notFoundFields : StdMap := StdMap.ofList [(lit "error", lit "Not Found")]

/-! ## Lemmas shared by the properties -/

theorem sendHttp_eq (client : Client) (code contentType body : Str) :
    sendHttp client code contentType body = send client (httpMessage code contentType body) := by
  simp [sendHttp, httpMessage, List.append_assoc]

theorem events_close_send (client : Client) (payload : Str) :
    (close (send client payload)).events
      = client.events ++ [Event.sent payload, Event.closed] := by
  simp [close, send]

theorem events_close (client : Client) :
    (close client).events = client.events ++ [Event.closed] := rfl

theorem startBody_eq :
    jsonResponse (StdMap.ofList
      [(lit "success", lit "true"), (lit "message", lit "Camera started")])
      = lit "\x7b\"message\":\"Camera started\",\"success\":\"true\"\x7d" := by
  decide

theorem statusMap_entries (s e : Str) :
    (StdMap.ofList [(lit "status", s), (lit "error", e)]).entries
      = [(lit "error", e), (lit "status", s)] := by
  have h : strLess (lit "error") (lit "status") = true := by decide
  simp [StdMap.ofList, StdMap.insert, StdMap.empty, insertEntry, h]

theorem getCameraStatusJson_eq (g : CameraState) :
    getCameraStatusJson g =
      (lit "\x7b\"error\":\"" ++ g.last_error ++ lit "\",\"status\":\""
        ++ statusName g.camera_state ++ lit "\"\x7d", g) := by
  have he : (if (!g.last_error.isEmpty) = true then g.last_error else []) = g.last_error := by
    cases h : g.last_error <;> simp
  have hs : (match g.camera_state with
      | CameraStatus.RUNNING => lit "running"
      | CameraStatus.STOPPED => lit "stopped"
      | CameraStatus.ERROR => lit "error") = statusName g.camera_state := by
    cases g.camera_state <;> rfl
  simp only [getCameraStatusJson, he, hs, jsonResponse, statusMap_entries]
  have h1 : lit "\x7b\"error\":\"" = lit "\x7b" ++ (lit "\"" ++ (lit "error" ++ lit "\":\"")) := by
    decide
  have h2 : lit "\",\"status\":\""
      = lit "\"" ++ (lit "," ++ (lit "\"" ++ (lit "status" ++ lit "\":\""))) := by decide
  have h3 : lit "\"\x7d" = lit "\"" ++ lit "\x7d" := by decide
  rw [h1, h2, h3]
  simp [List.foldl, jsonStep, List.append_assoc]

theorem route_start (client : Client) (g : CameraState) :
    route client (lit "POST") (lit "/camera/start") g =
      (close (send client (httpMessage (lit "200 OK") (lit "application/json")
        (lit "\x7b\"message\":\"Camera started\",\"success\":\"true\"\x7d"))),
       ⟨CameraStatus.RUNNING, []⟩) := by
  simp [route, startCamera, sendHttp_eq, startBody_eq]

theorem route_status (client : Client) (g : CameraState) :
    route client (lit "GET") (lit "/camera/status") g =
      (close (send client (httpMessage (lit "200 OK") (lit "application/json")
        (lit "\x7b\"error\":\"" ++ g.last_error ++ lit "\",\"status\":\""
          ++ statusName g.camera_state ++ lit "\"\x7d"))), g) := by
  have h : (lit "/camera/status" == lit "/camera/start") = false := by decide
  simp [route, h, sendHttp_eq, getCameraStatusJson_eq]

theorem route_other (client : Client) (g : CameraState) (method path : Str)
    (h : ¬ IsRoute method path) :
    route client method path g =
      (close (send client (httpMessage (lit "404 Not Found") (lit "application/json")
        (lit "\x7b\"error\":\"Not Found\"\x7d"))), g) := by
  have h1 : ¬ (path = lit "/camera/start" ∧ method = lit "POST") :=
    fun hc => h (Or.inl ⟨hc.2, hc.1⟩)
  have h2 : ¬ (path = lit "/camera/status" ∧ method = lit "GET") :=
    fun hc => h (Or.inr ⟨hc.2, hc.1⟩)
  simp only [route, Bool.and_eq_true, beq_iff_eq, h1, h2, if_false, sendHttp_eq]

theorem hasStatus_httpMessage (code contentType body : Str) :
    HasStatus (httpMessage code contentType body) code := by
  unfold HasStatus httpMessage
  simp only [List.append_assoc]
  exact (List.prefix_append_right_inj _).mpr
    ((List.prefix_append_right_inj _).mpr (List.prefix_append _ _))

theorem notFound_not_ok :
    ¬ HasStatus (httpMessage (lit "404 Not Found") (lit "application/json")
      (lit "\x7b\"error\":\"Not Found\"\x7d")) (lit "200 OK") := by
  unfold HasStatus
  decide

theorem handleRequest_of_readRequest (client : Client) (g : CameraState) (method path : Str)
    (h : readRequest client = some (method, path)) :
    handleRequest client g = route client method path g := by
  simp [handleRequest, h]

/-! ## Routing -/

/-- C1: when the request line yields the pair (method, path), the handler
answers with status `200 OK` exactly when the pair is (`POST`,
`/camera/start`) or (`GET`, `/camera/status`); for every other pair it
answers `404 Not Found` with the body `{"error":"Not Found"}`. -/
theorem handleRequest_ok_iff_route (client : Client) (g : CameraState) (method path : Str)
    (h : readRequest client = some (method, path)) :
    ((∃ resp, (handleRequest client g).1.events
          = client.events ++ [Event.sent resp, Event.closed]
        ∧ HasStatus resp (lit "200 OK")) ↔ IsRoute method path) ∧
    (¬ IsRoute method path →
      (handleRequest client g).1.events = client.events ++
        [Event.sent (httpMessage (lit "404 Not Found") (lit "application/json")
          (lit "\x7b\"error\":\"Not Found\"\x7d")), Event.closed]) := by
  rw [handleRequest_of_readRequest client g method path h]
  by_cases hr : IsRoute method path
  · refine ⟨⟨fun _ => hr, fun _ => ?_⟩, fun hn => absurd hr hn⟩
    rcases hr with ⟨hm, hp⟩ | ⟨hm, hp⟩
    · subst hm; subst hp
      rw [route_start]
      exact ⟨_, events_close_send _ _, hasStatus_httpMessage _ _ _⟩
    · subst hm; subst hp
      rw [route_status]
      exact ⟨_, events_close_send _ _, hasStatus_httpMessage _ _ _⟩
  · rw [route_other client g method path hr]
    refine ⟨⟨fun hex => ?_, fun hr2 => absurd hr2 hr⟩, fun _ => events_close_send _ _⟩
    obtain ⟨resp, he, hs⟩ := hex
    rw [events_close_send] at he
    have he2 := List.append_cancel_left he
    simp only [List.cons.injEq, Event.sent.injEq, and_true] at he2
    rw [← he2] at hs
    exact absurd hs notFound_not_ok

theorem handleRequest_ok_iff_route_witness :
    readRequest queryClient = some (lit "GET", lit "/camera/status?x=1") ∧
    (((∃ resp, (handleRequest queryClient initialState).1.events
          = queryClient.events ++ [Event.sent resp, Event.closed]
        ∧ HasStatus resp (lit "200 OK")) ↔ IsRoute (lit "GET") (lit "/camera/status?x=1")) ∧
    (¬ IsRoute (lit "GET") (lit "/camera/status?x=1") →
      (handleRequest queryClient initialState).1.events = queryClient.events ++
        [Event.sent (httpMessage (lit "404 Not Found") (lit "application/json")
          (lit "\x7b\"error\":\"Not Found\"\x7d")), Event.closed])) :=
  ⟨by decide, handleRequest_ok_iff_route queryClient initialState _ _ (by decide)⟩

/-- C2 as stated fails: for a well-formed start request in the initial state
the handler does not send the body with `success` before `message`. -/
theorem start_body_not_success_first :
    (handleRequest startClient initialState).1.events ≠
      [Event.sent (httpMessage (lit "200 OK") (lit "application/json")
        (lit "\x7b\"success\":\"true\",\"message\":\"Camera started\"\x7d")), Event.closed] := by
  decide

/-- C2, amended: for every camera state, a request routed as (`POST`,
`/camera/start`) is answered with status `200 OK` and the body
`{"message":"Camera started","success":"true"}`, the two fields in ascending
key order, and the connection is then closed. -/
theorem handleRequest_start_response (client : Client) (g : CameraState)
    (h : readRequest client = some (lit "POST", lit "/camera/start")) :
    (handleRequest client g).1.events = client.events ++
      [Event.sent (httpMessage (lit "200 OK") (lit "application/json")
        (lit "\x7b\"message\":\"Camera started\",\"success\":\"true\"\x7d")), Event.closed] := by
  rw [handleRequest_of_readRequest client g _ _ h, route_start]
  exact events_close_send _ _

theorem handleRequest_start_response_witness :
    readRequest startClient = some (lit "POST", lit "/camera/start") ∧
    (handleRequest startClient initialState).1.events = startClient.events ++
      [Event.sent (httpMessage (lit "200 OK") (lit "application/json")
        (lit "\x7b\"message\":\"Camera started\",\"success\":\"true\"\x7d")), Event.closed] :=
  ⟨by decide, handleRequest_start_response startClient initialState (by decide)⟩

/-- C3: whatever the camera state was before, once `startCamera` has run a
request routed as (`GET`, `/camera/status`) is answered `200 OK` with the body
`{"error":"","status":"running"}`. -/
theorem status_after_start (client : Client) (prior : CameraState)
    (h : readRequest client = some (lit "GET", lit "/camera/status")) :
    (handleRequest client (startCamera prior).2).1.events = client.events ++
      [Event.sent (httpMessage (lit "200 OK") (lit "application/json")
        (lit "\x7b\"error\":\"\",\"status\":\"running\"\x7d")), Event.closed] := by
  rw [handleRequest_of_readRequest client _ _ _ h, route_status, events_close_send]
  have hb : lit "\x7b\"error\":\"" ++ (startCamera prior).2.last_error ++ lit "\",\"status\":\""
      ++ statusName (startCamera prior).2.camera_state ++ lit "\"\x7d"
      = lit "\x7b\"error\":\"\",\"status\":\"running\"\x7d" := by
    simp only [startCamera]
    decide
  rw [hb]

theorem status_after_start_witness :
    readRequest statusClient = some (lit "GET", lit "/camera/status") ∧
    (handleRequest statusClient
        (startCamera ⟨CameraStatus.ERROR, lit "device unreachable"⟩).2).1.events
      = statusClient.events ++
      [Event.sent (httpMessage (lit "200 OK") (lit "application/json")
        (lit "\x7b\"error\":\"\",\"status\":\"running\"\x7d")), Event.closed] :=
  ⟨by decide, status_after_start statusClient ⟨CameraStatus.ERROR, lit "device unreachable"⟩
    (by decide)⟩

/-! ## The state store -/

/-- C4: for every camera state with status `s` and last error `e`,
`getCameraStatusJson` returns what `jsonResponse` gives for the map with the
two fields `status`, holding the name of `s`, and `error`, holding `e`, that
is the text `{"error":"<e>","status":"<name of s>"}`; in the initial state
this is `{"error":"","status":"stopped"}`. -/
theorem getCameraStatusJson_encodes (g : CameraState) :
    (getCameraStatusJson g).1
        = jsonResponse (StdMap.ofList
            [(lit "status", statusName g.camera_state), (lit "error", g.last_error)]) ∧
    (getCameraStatusJson g).1
        = lit "\x7b\"error\":\"" ++ g.last_error ++ lit "\",\"status\":\""
            ++ statusName g.camera_state ++ lit "\"\x7d" ∧
    (getCameraStatusJson initialState).1 = lit "\x7b\"error\":\"\",\"status\":\"stopped\"\x7d" := by
  refine ⟨?_, by rw [getCameraStatusJson_eq], by decide⟩
  have he : (if (!g.last_error.isEmpty) = true then g.last_error else []) = g.last_error := by
    cases h : g.last_error <;> simp
  have hs : (match g.camera_state with
      | CameraStatus.RUNNING => lit "running"
      | CameraStatus.STOPPED => lit "stopped"
      | CameraStatus.ERROR => lit "error") = statusName g.camera_state := by
    cases g.camera_state <;> rfl
  simp only [getCameraStatusJson, he, hs]

theorem startCalls_succ (n : Nat) (g : CameraState) :
    startCalls (n + 1) g
      = (List.replicate (n + 1) true, ⟨CameraStatus.RUNNING, []⟩) := by
  induction n generalizing g with
  | zero => simp [startCalls, startCamera]
  | succ k ih => 
    rw [startCalls]
    simp only [ih, startCamera, List.replicate_succ]

/-- C5: `startCamera` returns `true` from every state and leaves the status
`RUNNING` with an empty last error; so `n >= 1` calls in a row all succeed and
end in that state, and calling it twice gives the state of calling it once. -/
theorem startCamera_idempotent (g : CameraState) (n : Nat) (hn : 1 ≤ n) :
    startCamera g = (true, ⟨CameraStatus.RUNNING, []⟩) ∧
    startCalls n g = (List.replicate n true, ⟨CameraStatus.RUNNING, []⟩) ∧
    (startCamera (startCamera g).2).2 = (startCamera g).2 := by
  refine ⟨rfl, ?_, rfl⟩
  obtain ⟨k, rfl⟩ : ∃ k, n = k + 1 := ⟨n - 1, by omega⟩
  exact startCalls_succ k g

theorem startCamera_idempotent_witness :
    1 ≤ 3 ∧
    (startCamera ⟨CameraStatus.ERROR, lit "device unreachable"⟩
        = (true, ⟨CameraStatus.RUNNING, []⟩) ∧
     startCalls 3 ⟨CameraStatus.ERROR, lit "device unreachable"⟩
        = (List.replicate 3 true, ⟨CameraStatus.RUNNING, []⟩) ∧
     (startCamera (startCamera ⟨CameraStatus.ERROR, lit "device unreachable"⟩).2).2
        = (startCamera ⟨CameraStatus.ERROR, lit "device unreachable"⟩).2) :=
  ⟨by decide, startCamera_idempotent ⟨CameraStatus.ERROR, lit "device unreachable"⟩ 3 (by decide)⟩

/-! ## Response layout -/

theorem route_response (client : Client) (method path : Str) (g : CameraState) :
    ∃ code body, (code = lit "200 OK" ∨ code = lit "404 Not Found") ∧
      (route client method path g).1
        = close (send client (httpMessage code (lit "application/json") body)) := by
  by_cases hr : IsRoute method path
  · rcases hr with ⟨hm, hp⟩ | ⟨hm, hp⟩
    · subst hm; subst hp
      exact ⟨_, _, Or.inl rfl, by rw [route_start]⟩
    · subst hm; subst hp
      exact ⟨_, _, Or.inl rfl, by rw [route_status]⟩
  · exact ⟨_, _, Or.inr rfl, by rw [route_other client g method path hr]⟩

/-- C6: `sendHttp` sends the status line, the `Content-Type` line, the
`Content-Length` line with the decimal byte length of the body, the
`Connection: close` line, an empty line and the body; every response of
`handleRequest` has this layout with the content type `application/json` and
the status `200 OK` or `404 Not Found`; for the not-found body the length
written is 21. -/
theorem sendHttp_layout (client : Client) (g : CameraState) (code contentType body : Str) :
    (sendHttp client code contentType body).events = client.events ++
      [Event.sent (lit "HTTP/1.1 " ++ code ++ lit "\r\n"
        ++ lit "Content-Type: " ++ contentType ++ lit "\r\n"
        ++ lit "Content-Length: " ++ decimal body.length ++ lit "\r\n"
        ++ lit "Connection: close\r\n" ++ lit "\r\n" ++ body)] ∧
    ((handleRequest client g).1.events = client.events ++ [Event.closed] ∨
      ∃ code2 body2, (code2 = lit "200 OK" ∨ code2 = lit "404 Not Found") ∧
        (handleRequest client g).1.events = client.events ++
          [Event.sent (lit "HTTP/1.1 " ++ code2 ++ lit "\r\n"
            ++ lit "Content-Type: " ++ lit "application/json" ++ lit "\r\n"
            ++ lit "Content-Length: " ++ decimal body2.length ++ lit "\r\n"
            ++ lit "Connection: close\r\n" ++ lit "\r\n" ++ body2), Event.closed]) ∧
    (lit "\x7b\"error\":\"Not Found\"\x7d").length = 21 ∧
    httpMessage (lit "404 Not Found") (lit "application/json") (lit "\x7b\"error\":\"Not Found\"\x7d")
      = lit ("HTTP/1.1 404 Not Found\r\nContent-Type: application/json\r\n"
          ++ "Content-Length: 21\r\nConnection: close\r\n\r\n\x7b\"error\":\"Not Found\"\x7d") := by
  refine ⟨?_, ?_, by decide, by decide⟩
  · rw [sendHttp_eq]
    rfl
  · cases hq : readRequest client with
    | none =>
      left
      simp [handleRequest, hq, close]
    | some mp =>
      right
      obtain ⟨method, path⟩ := mp
      obtain ⟨code2, body2, hc, hr⟩ := route_response client method path g
      refine ⟨code2, body2, hc, ?_⟩
      rw [handleRequest_of_readRequest client g method path hq, hr, events_close_send]
      rfl

/-! ## The response encoder -/

theorem intercalate_cons_eq (sep x : Str) (xs : List Str) :
    List.intercalate sep (x :: xs) = x ++ (xs.map (fun y => sep ++ y)).flatten := by
  induction xs generalizing x with
  | nil => simp [List.intercalate]
  | cons y ys ih =>
    have h := ih y
    simp only [List.intercalate, List.intersperse, List.flatten_cons, List.map_cons] at h ⊢
    rw [h]
    simp

theorem jsonStep_foldl_rest (es : List (Str × Str)) (oss : Str) :
    es.foldl jsonStep (oss, false)
      = (oss ++ (es.map (fun e => lit "," ++ renderField e)).flatten, false) := by
  induction es generalizing oss with
  | nil => simp
  | cons e es ih =>
    simp only [List.foldl_cons, List.map_cons, List.flatten_cons]
    have hstep : jsonStep (oss, false) e = (oss ++ (lit "," ++ renderField e), false) := by
      simp [jsonStep, renderField, List.append_assoc]
    rw [hstep, ih]
    simp [List.append_assoc]

theorem jsonResponse_eq_intercalate (fields : StdMap) :
    jsonResponse fields
      = lit "\x7b" ++ List.intercalate (lit ",") (fields.entries.map renderField) ++ lit "\x7d" := by
  have hfold : jsonResponse fields
      = (fields.entries.foldl jsonStep ([] ++ lit "\x7b", true)).1 ++ lit "\x7d" := rfl
  rw [hfold]
  cases hes : fields.entries with
  | nil => simp [List.intercalate]
  | cons e es =>
    have hstep : jsonStep ([] ++ lit "\x7b", true) e = (lit "\x7b" ++ renderField e, false) := by
      simp [jsonStep, renderField, List.append_assoc]
    rw [List.foldl_cons, hstep, jsonStep_foldl_rest, List.map_cons, intercalate_cons_eq,
      List.map_map]
    simp [List.append_assoc, Function.comp_def]

/-- C7: for every map, `jsonResponse` returns an opening brace, the fields
rendered as `"<key>":"<value>"` in the strictly ascending key order of the
map, joined by single commas, and a closing brace; the empty map gives `{}`,
and the map with `success` holding `true` and `message` holding
`Camera started` gives the one line
`{"message":"Camera started","success":"true"}`. -/
theorem jsonResponse_layout (fields : StdMap) :
    jsonResponse fields
      = lit "\x7b" ++ List.intercalate (lit ",") (fields.entries.map renderField) ++ lit "\x7d" ∧
    fields.entries.Pairwise (fun a b => strLess a.1 b.1 = true) ∧
    jsonResponse StdMap.empty = lit "\x7b\x7d" ∧
    (StdMap.ofList [(lit "success", lit "true"), (lit "message", lit "Camera started")]).entries
      = [(lit "message", lit "Camera started"), (lit "success", lit "true")] ∧
    jsonResponse (StdMap.ofList
        [(lit "success", lit "true"), (lit "message", lit "Camera started")])
      = lit "\x7b\"message\":\"Camera started\",\"success\":\"true\"\x7d" ∧
    (10 : Byte) ∉ jsonResponse (StdMap.ofList
        [(lit "success", lit "true"), (lit "message", lit "Camera started")]) :=
  ⟨jsonResponse_eq_intercalate fields, fields.ordered, by decide, by decide, by decide,
    by decide⟩

/-! ## Dropped connections -/

theorem getline_none_iff (text : Str) :
    (getline { rest := text, fail := false }).2 = none ↔ text = [] := by
  cases text <;> simp [getline]

theorem cString_eq_nil_iff (buf : Str) :
    cString buf = [] ↔ buf = [] ∨ buf.head? = some 0 := by
  cases buf with
  | nil => simp [cString]
  | cons c cs =>
    by_cases hc : c = 0
    · simp [cString, List.takeWhile, hc]
    · have hb : (c != 0) = true := bne_iff_ne.mpr hc
      simp [cString, List.takeWhile, hb, hc]

theorem recv_count (client : Client) (len : Nat) :
    (recv client len).1 ≤ 0 ↔ (recv client len).2 = [] := by
  unfold recv
  cases client.incoming with
  | failure => simp
  | data bytes =>
    simp only
    constructor
    · intro h
      have h0 : (List.take len bytes).length = 0 := by omega
      exact List.length_eq_zero.mp h0
    · intro h
      rw [h]
      simp

/-- The handler drops the connection exactly when the count returned by `recv`
is not positive or the first received byte is NUL. -/
theorem readRequest_eq_none_iff (client : Client) :
    readRequest client = none ↔
      (recv client (4096 - 1)).1 ≤ 0 ∨ (recv client (4096 - 1)).2.head? = some 0 := by
  have hget := getline_none_iff (cString (recv client (4096 - 1)).2)
  have hcs := cString_eq_nil_iff (recv client (4096 - 1)).2
  have hcnt := recv_count client (4096 - 1)
  unfold readRequest
  by_cases hn : (recv client (4096 - 1)).1 ≤ 0
  · simp [hn]
  · have hne : ¬ (recv client (4096 - 1)).2 = [] := fun h => hn (hcnt.mpr h)
    simp only [hn, if_false, false_or]
    cases hg : getline { rest := cString (recv client (4096 - 1)).2, fail := false } with
    | mk st res =>
      rw [hg] at hget
      cases res with
      | none =>
        simp only [true_iff]
        have := hcs.mp (hget.mp rfl)
        exact this.resolve_left hne
      | some line =>
        refine ⟨fun hc => by simp at hc, fun h0 => ?_⟩
        have : cString (recv client (4096 - 1)).2 = [] := hcs.mpr (Or.inr h0)
        have := hget.mpr this
        simp at this

/-- C8 as stated fails: when the one byte received is NUL the count is 1, yet
the handler closes the connection without sending anything. -/
theorem nul_request_dropped :
    (recv nulClient (4096 - 1)).1 = 1 ∧
    (handleRequest nulClient initialState).1.events = [Event.closed] := by
  decide

/-- C8, amended: the handler closes the connection without a response
exactly when the count returned by the single `recv` is zero or negative or
the first received byte is NUL (the text read from the buffer is then empty
and `getline` fails); in every other case it sends exactly one response, with
status `200 OK` or `404 Not Found`, and then closes the connection. -/
theorem handleRequest_dropped_iff (client : Client) (g : CameraState) :
    ((handleRequest client g).1.events = client.events ++ [Event.closed] ↔
      ((recv client (4096 - 1)).1 ≤ 0 ∨ (recv client (4096 - 1)).2.head? = some 0)) ∧
    (¬ ((recv client (4096 - 1)).1 ≤ 0 ∨ (recv client (4096 - 1)).2.head? = some 0) →
      ∃ code body, (code = lit "200 OK" ∨ code = lit "404 Not Found") ∧
        (handleRequest client g).1.events = client.events ++
          [Event.sent (httpMessage code (lit "application/json") body), Event.closed]) := by
  rw [← readRequest_eq_none_iff]
  cases hq : readRequest client with
  | none =>
    refine ⟨⟨fun _ => rfl, fun _ => ?_⟩, fun hn => absurd rfl hn⟩
    simp [handleRequest, hq, close]
  | some mp =>
    obtain ⟨method, path⟩ := mp
    obtain ⟨code, body, hc, hr⟩ := route_response client method path g
    have hev : (handleRequest client g).1.events = client.events ++
        [Event.sent (httpMessage code (lit "application/json") body), Event.closed] := by
      rw [handleRequest_of_readRequest client g method path hq, hr, events_close_send]
    refine ⟨⟨fun h => ?_, fun h => ?_⟩, fun _ => ⟨code, body, hc, hev⟩⟩
    · rw [hev] at h
      have h2 := List.append_cancel_left h
      simp at h2
    · simp at h

theorem handleRequest_dropped_iff_witness :
    ¬ ((recv statusClient (4096 - 1)).1 ≤ 0 ∨
        (recv statusClient (4096 - 1)).2.head? = some 0) ∧
    ∃ code body, (code = lit "200 OK" ∨ code = lit "404 Not Found") ∧
      (handleRequest statusClient initialState).1.events = statusClient.events ++
        [Event.sent (httpMessage code (lit "application/json") body), Event.closed] :=
  ⟨by decide, (handleRequest_dropped_iff statusClient initialState).2 (by decide)⟩

/-! ## Frame -/

/-- C9: `getCameraStatusJson` leaves the camera state as it was, and so does
the handling of every connection whose request is not routed as (`POST`,
`/camera/start`): the status route, the not-found fallback and a dropped
connection. -/
theorem handleRequest_frame (client : Client) (g : CameraState)
    (h : readRequest client ≠ some (lit "POST", lit "/camera/start")) :
    (getCameraStatusJson g).2 = g ∧ (handleRequest client g).2 = g := by
  refine ⟨by rw [getCameraStatusJson_eq], ?_⟩
  cases hq : readRequest client with
  | none => simp [handleRequest, hq]
  | some mp =>
    obtain ⟨method, path⟩ := mp
    rw [handleRequest_of_readRequest client g method path hq]
    by_cases hr : IsRoute method path
    · rcases hr with ⟨hm, hp⟩ | ⟨hm, hp⟩
      · subst hm; subst hp
        exact absurd hq h
      · subst hm; subst hp
        rw [route_status]
    · rw [route_other client g method path hr]

theorem handleRequest_frame_witness :
    readRequest queryClient ≠ some (lit "POST", lit "/camera/start") ∧
    ((getCameraStatusJson ⟨CameraStatus.ERROR, lit "device unreachable"⟩).2
        = ⟨CameraStatus.ERROR, lit "device unreachable"⟩ ∧
     (handleRequest queryClient ⟨CameraStatus.ERROR, lit "device unreachable"⟩).2
        = ⟨CameraStatus.ERROR, lit "device unreachable"⟩) :=
  ⟨by decide, handleRequest_frame queryClient ⟨CameraStatus.ERROR, lit "device unreachable"⟩
    (by decide)⟩

/-! ## Reachable states -/

theorem handleRequest_state (client : Client) (g : CameraState) :
    (handleRequest client g).2 = g ∨
      (handleRequest client g).2 = ⟨CameraStatus.RUNNING, []⟩ := by
  cases hq : readRequest client with
  | none => left; simp [handleRequest, hq]
  | some mp =>
    obtain ⟨method, path⟩ := mp
    rw [handleRequest_of_readRequest client g method path hq]
    by_cases hr : IsRoute method path
    · rcases hr with ⟨hm, hp⟩ | ⟨hm, hp⟩
      · subst hm; subst hp
        right; rw [route_start]
      · subst hm; subst hp
        left; rw [route_status]
    · left; rw [route_other client g method path hr]

theorem serve_keeps (clients : List Client) (g : CameraState)
    (hg : g = initialState ∨ g = ⟨CameraStatus.RUNNING, []⟩) :
    serve clients g = initialState ∨ serve clients g = ⟨CameraStatus.RUNNING, []⟩ := by
  induction clients generalizing g with
  | nil => exact hg
  | cons c cs ih =>
    rw [serve]
    apply ih
    rcases handleRequest_state c g with h | h
    · rw [h]; exact hg
    · right; exact h

theorem serve_running (clients : List Client) :
    serve clients ⟨CameraStatus.RUNNING, []⟩ = ⟨CameraStatus.RUNNING, []⟩ := by
  induction clients with
  | nil => rfl
  | cons c cs ih =>
    rw [serve]
    rcases handleRequest_state c ⟨CameraStatus.RUNNING, []⟩ with h | h <;> rw [h, ih]

/-- C13: in every state reached from the initial state by handling a finite
sequence of connections the status is not `ERROR` and the last error is
empty; and when the status of such a state is `RUNNING`, it is `RUNNING`
after any further sequence of connections, so it never returns to
`STOPPED`. -/
theorem reachable_invariant (clients later : List Client) :
    (serve clients initialState).camera_state ≠ CameraStatus.ERROR ∧
    (serve clients initialState).last_error = [] ∧
    ((serve clients initialState).camera_state = CameraStatus.RUNNING →
      (serve later (serve clients initialState)).camera_state = CameraStatus.RUNNING) := by
  rcases serve_keeps clients initialState (Or.inl rfl) with h | h
  · rw [h]
    exact ⟨by decide, rfl, fun hc => absurd hc (by decide)⟩
  · rw [h]
    exact ⟨by decide, rfl, fun _ => by rw [serve_running]⟩

theorem reachable_invariant_witness :
    (serve [statusClient, startClient, queryClient] initialState).camera_state
      ≠ CameraStatus.ERROR ∧
    (serve [statusClient, startClient, queryClient] initialState).last_error = [] ∧
    (serve [nulClient, statusClient]
      (serve [statusClient, startClient, queryClient] initialState)).camera_state
        = CameraStatus.RUNNING :=
  have h := reachable_invariant [statusClient, startClient, queryClient] [nulClient, statusClient]
  ⟨h.1, h.2.1, h.2.2 (by decide)⟩

/-! ## The request line -/

theorem extract_fresh (text : Str) :
    extract { rest := text, fail := false } []
      = ({ rest := afterFirstWord text, fail := (text.dropWhile isspace).isEmpty },
          firstWord text) := by
  unfold extract firstWord afterFirstWord
  cases h : List.dropWhile isspace text with
  | nil => simp
  | cons c cs => simp

theorem extract_second (text : Str) (failed : Bool)
    (hf : failed = true → afterFirstWord text = []) :
    (extract { rest := afterFirstWord text, fail := failed } []).2
      = firstWord (afterFirstWord text) := by
  cases failed with
  | true =>
    rw [hf rfl]
    simp [extract, firstWord]
  | false =>
    rw [extract_fresh]

/-- The words `handleRequest` reads: the first two words of the first line of
the received bytes cut at the first NUL. -/
theorem readRequest_eq_some (client : Client)
    (h : ¬ ((recv client (4096 - 1)).1 ≤ 0 ∨ (recv client (4096 - 1)).2.head? = some 0)) :
    readRequest client =
      some (firstWord (firstLine (cString (received client))),
            firstWord (afterFirstWord (firstLine (cString (received client))))) := by
  have hn : ¬ (recv client (4096 - 1)).1 ≤ 0 := fun hc => h (Or.inl hc)
  have hne : cString (recv client (4096 - 1)).2 ≠ [] := by
    intro hc
    rcases (cString_eq_nil_iff _).mp hc with h0 | h0
    · exact hn ((recv_count client (4096 - 1)).mpr h0)
    · exact h (Or.inr h0)
  unfold readRequest received firstLine
  simp only [hn, if_false]
  have hg : getline { rest := cString (recv client (4096 - 1)).2, fail := false }
      = ({ rest := ((cString (recv client (4096 - 1)).2).dropWhile (fun c => c != 10)).drop 1,
           fail := false },
         some ((cString (recv client (4096 - 1)).2).takeWhile (fun c => c != 10))) := by
    cases hc : cString (recv client (4096 - 1)).2 with
    | nil => exact absurd hc hne
    | cons c cs => simp [getline]
  rw [hg]
  simp only [extract_fresh]
  congr 2
  apply extract_second
  intro hf
  unfold afterFirstWord
  rw [List.isEmpty_iff.mp hf]
  rfl

/-! ## The receive buffer -/

theorem takeWhile_comm (p q : Byte → Bool) (l : Str) :
    (l.takeWhile q).takeWhile p = (l.takeWhile p).takeWhile q := by
  induction l with
  | nil => rfl
  | cons x xs ih =>
    cases hp : p x <;> cases hq : q x <;> simp [List.takeWhile_cons, hp, hq, ih]

theorem dropWhile_takeWhile (a b : Byte → Bool) (l : Str) :
    (l.takeWhile b).dropWhile a
      = if (l.takeWhile a).all b then (l.dropWhile a).takeWhile b else [] := by
  induction l with
  | nil => simp
  | cons x xs ih =>
    cases ha : a x <;> cases hb : b x <;>
      simp [List.takeWhile_cons, List.dropWhile_cons, ha, hb, ih]

theorem isspace_ne_zero (c : Byte) (h : isspace c = true) : (c != 0) = true := by
  by_cases h0 : c = 0
  · subst h0
    exact absurd h (by decide)
  · exact bne_iff_ne.mpr h0

theorem firstLine_cString (buf : Str) : firstLine (cString buf) = cString (firstLine buf) :=
  takeWhile_comm (fun c => c != 10) (fun c => c != 0) buf

theorem dropWhile_isspace_cString (text : Str) :
    (cString text).dropWhile isspace = cString (text.dropWhile isspace) := by
  unfold cString
  rw [dropWhile_takeWhile]
  have hall : (text.takeWhile isspace).all (fun c => c != 0) = true := by
    rw [List.all_eq_true]
    intro c hc
    exact isspace_ne_zero c (List.mem_takeWhile_imp hc)
  rw [hall]
  rfl

theorem firstWord_cString (text : Str) :
    firstWord (cString text) = cString (firstWord text) := by
  unfold firstWord
  rw [dropWhile_isspace_cString]
  exact takeWhile_comm (fun c => !isspace c) (fun c => c != 0) _

theorem afterFirstWord_cString (text : Str) :
    afterFirstWord (cString text)
      = if (firstWord text).all (fun c => c != 0) then cString (afterFirstWord text) else [] := by
  unfold afterFirstWord firstWord
  rw [dropWhile_isspace_cString]
  exact dropWhile_takeWhile (fun c => !isspace c) (fun c => c != 0) _

/-- The words `handleRequest` reads, in terms of the first two words of the
whole first line: each is cut at its first NUL, and the second is empty when
the first contains a NUL. -/
theorem readRequest_words (client : Client)
    (h : ¬ ((recv client (4096 - 1)).1 ≤ 0 ∨ (recv client (4096 - 1)).2.head? = some 0)) :
    readRequest client =
      some (cString (firstWord (firstLine (received client))),
            if (firstWord (firstLine (received client))).all (fun c => c != 0)
            then cString (firstWord (afterFirstWord (firstLine (received client))))
            else []) := by
  rw [readRequest_eq_some client h, firstLine_cString, firstWord_cString,
    afterFirstWord_cString]
  split
  · rw [firstWord_cString]
  · rfl

theorem words_cons_space (c : Byte) (text : Str) (hc : isspace c = true) :
    words (c :: text) = words text := by
  unfold words
  rw [List.splitOnP_cons, if_pos hc]
  rfl

theorem words_dropWhile (text : Str) : words (text.dropWhile isspace) = words text := by
  induction text with
  | nil => rfl
  | cons c cs ih =>
    cases hc : isspace c with
    | true => rw [List.dropWhile_cons, if_pos hc, ih, words_cons_space c cs hc]
    | false => simp [List.dropWhile_cons, hc]

theorem words_cons_nonspace (c : Byte) (text : Str) (hc : isspace c = false) :
    words (c :: text)
      = (c :: text).takeWhile (fun x => !isspace x)
          :: words ((c :: text).dropWhile (fun x => !isspace x)) := by
  have hsplit := List.takeWhile_append_dropWhile (fun x => !isspace x) (c :: text)
  have hno : ∀ x ∈ (c :: text).takeWhile (fun x => !isspace x), ¬ isspace x = true := by
    intro x hx
    have := List.mem_takeWhile_imp hx
    simpa using this
  have hhead : (c :: text).takeWhile (fun x => !isspace x) ≠ [] := by
    simp [List.takeWhile_cons, hc]
  cases hd : (c :: text).dropWhile (fun x => !isspace x) with
  | nil =>
    rw [hd, List.append_nil] at hsplit
    have hall : ∀ x ∈ c :: text, ¬ isspace x = true := by
      rw [← hsplit]; exact hno
    unfold words
    rw [hsplit, List.splitOnP_eq_single isspace _ hall]
    have hne : (c :: text).isEmpty = false := rfl
    simp [List.filter, hne]
  | cons sep rest =>
    have hsep : isspace sep = true := by
      have h := List.head?_dropWhile_not (fun x => !isspace x) (c :: text)
      rw [hd] at h
      simpa using h
    rw [hd] at hsplit
    have hw : words (c :: text)
        = words ((c :: text).takeWhile (fun x => !isspace x) ++ sep :: rest) := by
      rw [hsplit]
    rw [hw, words_cons_space sep rest hsep]
    unfold words
    rw [List.splitOnP_first isspace _ hno sep hsep rest]
    cases ht : (c :: text).takeWhile (fun x => !isspace x) with
    | nil => exact absurd ht hhead
    | cons y ys => simp [List.filter]

/-- The words of a text: none when only white space is left, else the first
word followed by the words of what comes after it. -/
theorem words_eq (text : Str) :
    words text =
      match text.dropWhile isspace with
      | [] => []
      | _ :: _ => firstWord text :: words (afterFirstWord text) := by
  rw [← words_dropWhile]
  unfold firstWord afterFirstWord
  cases hd : text.dropWhile isspace with
  | nil => rfl
  | cons c cs =>
    have hc : isspace c = false := by
      have h := List.head?_dropWhile_not isspace text
      rw [hd] at h
      simpa using h
    exact words_cons_nonspace c cs hc

theorem words_first (text : Str) : (words text)[0]?.getD [] = firstWord text := by
  rw [words_eq]
  unfold firstWord
  cases hd : text.dropWhile isspace with
  | nil => rfl
  | cons c cs => simp [firstWord, hd]

theorem words_second (text : Str) :
    (words text)[1]?.getD [] = firstWord (afterFirstWord text) := by
  rw [words_eq]
  cases hd : text.dropWhile isspace with
  | nil => simp [afterFirstWord, firstWord, hd]
  | cons c cs =>
    simp only [List.getElem?_cons_succ]
    exact words_first _

/-- C11 as stated fails: two received byte sequences whose first lines have
the same first word and the same second word, one starting with a NUL byte
and the other with a space and a NUL byte; the first is dropped without a
response, the second is answered `404 Not Found`. -/
theorem same_words_different_response :
    (words (firstLine (received nulFirstClient)))[0]?
      = (words (firstLine (received spaceNulClient)))[0]? ∧
    (words (firstLine (received nulFirstClient)))[1]?
      = (words (firstLine (received spaceNulClient)))[1]? ∧
    (handleRequest nulFirstClient initialState).1.events = [Event.closed] ∧
    (handleRequest spaceNulClient initialState).1.events =
      [Event.sent (httpMessage (lit "404 Not Found") (lit "application/json")
        (lit "\x7b\"error\":\"Not Found\"\x7d")), Event.closed] := by
  decide

/-- C11, amended: for every two connections on which at least one byte is
received and the first received byte is not NUL, if the first lines of the
received bytes (the bytes before the first newline) have the same first and
the same second white-space separated word, then for every camera state
`handleRequest` makes the same `send` and `close` calls on both and leaves
the same state, whatever else the received bytes contain. -/
theorem handleRequest_determined_by_words (c1 c2 : Client) (g : CameraState)
    (h1 : 0 < (recv c1 (4096 - 1)).1 ∧ (received c1).head? ≠ some 0)
    (h2 : 0 < (recv c2 (4096 - 1)).1 ∧ (received c2).head? ≠ some 0)
    (hw0 : (words (firstLine (received c1)))[0]? = (words (firstLine (received c2)))[0]?)
    (hw1 : (words (firstLine (received c1)))[1]? = (words (firstLine (received c2)))[1]?) :
    (∃ calls, (handleRequest c1 g).1.events = c1.events ++ calls ∧
        (handleRequest c2 g).1.events = c2.events ++ calls) ∧
    (handleRequest c1 g).2 = (handleRequest c2 g).2 := by
  have hd1 : ¬ ((recv c1 (4096 - 1)).1 ≤ 0 ∨ (recv c1 (4096 - 1)).2.head? = some 0) := by
    intro hc
    rcases hc with hc | hc
    · omega
    · exact h1.2 hc
  have hd2 : ¬ ((recv c2 (4096 - 1)).1 ≤ 0 ∨ (recv c2 (4096 - 1)).2.head? = some 0) := by
    intro hc
    rcases hc with hc | hc
    · omega
    · exact h2.2 hc
  have hf : firstWord (firstLine (received c1)) = firstWord (firstLine (received c2)) := by
    rw [← words_first, ← words_first, hw0]
  have hs : firstWord (afterFirstWord (firstLine (received c1)))
      = firstWord (afterFirstWord (firstLine (received c2))) := by
    rw [← words_second, ← words_second, hw1]
  have hq1 := readRequest_words c1 hd1
  have hq2 := readRequest_words c2 hd2
  rw [hf, hs] at hq1
  rw [handleRequest_of_readRequest c1 g _ _ hq1, handleRequest_of_readRequest c2 g _ _ hq2]
  generalize cString (firstWord (firstLine (received c2))) = method
  generalize (if (firstWord (firstLine (received c2))).all (fun c => c != 0) = true
    then cString (firstWord (afterFirstWord (firstLine (received c2)))) else []) = path
  by_cases hr : IsRoute method path
  · rcases hr with ⟨hm, hp⟩ | ⟨hm, hp⟩
    · subst hm; subst hp
      rw [route_start, route_start]
      exact ⟨⟨_, events_close_send _ _, events_close_send _ _⟩, rfl⟩
    · subst hm; subst hp
      rw [route_status, route_status]
      exact ⟨⟨_, events_close_send _ _, events_close_send _ _⟩, rfl⟩
  · rw [route_other c1 g method path hr, route_other c2 g method path hr]
    exact ⟨⟨_, events_close_send _ _, events_close_send _ _⟩, rfl⟩

theorem handleRequest_determined_by_words_witness :
    (0 < (recv statusClient (4096 - 1)).1 ∧ (received statusClient).head? ≠ some 0) ∧
    (0 < (recv looseStatusClient (4096 - 1)).1 ∧
      (received looseStatusClient).head? ≠ some 0) ∧
    (words (firstLine (received statusClient)))[0]?
      = (words (firstLine (received looseStatusClient)))[0]? ∧
    (words (firstLine (received statusClient)))[1]?
      = (words (firstLine (received looseStatusClient)))[1]? ∧
    ((∃ calls, (handleRequest statusClient initialState).1.events
          = statusClient.events ++ calls ∧
        (handleRequest looseStatusClient initialState).1.events
          = looseStatusClient.events ++ calls) ∧
     (handleRequest statusClient initialState).2
        = (handleRequest looseStatusClient initialState).2) :=
  ⟨by decide, by decide, by decide, by decide,
    handleRequest_determined_by_words statusClient looseStatusClient initialState
      (by decide) (by decide) (by decide) (by decide)⟩

/-! ## Lengths of JSON texts -/

theorem textCost_nil : textCost [] = 0 := rfl

theorem textCost_append (a b : Str) : textCost (a ++ b) = textCost a + textCost b := by
  unfold textCost
  rw [List.length_append, List.countP_append]
  omega

theorem textCost_le (d : Str) : textCost d ≤ 2 * d.length := by
  unfold textCost
  have := List.countP_le_length (fun c => c == 0x22 || c == 0x5C) (l := d)
  omega

theorem length_le_textCost (d : Str) : d.length ≤ textCost d := by
  unfold textCost
  omega

theorem textCost_lt (d : Str) (h : 0x22 ∈ d ∨ 0x5C ∈ d) : d.length < textCost d := by
  unfold textCost
  have hpos : 0 < d.countP (fun c => c == 0x22 || c == 0x5C) := by
    rw [List.countP_pos_iff]
    rcases h with h | h
    · exact ⟨_, h, by decide⟩
    · exact ⟨_, h, by decide⟩
  omega

theorem utf8_length (cp : Nat) :
    (utf8 cp).length ≤ 4 ∧ (cp < 0x10000 → (utf8 cp).length ≤ 3) := by
  unfold utf8
  split
  · simp
  · split
    · simp
    · split
      · simp
      · constructor
        · simp
        · intro h; omega

theorem decodeUnicode_length (s d rest : Str) (h : decodeUnicode s = some (d, rest)) :
    textCost d + rest.length ≤ s.length + 2 := by
  unfold decodeUnicode at h
  split at h
  · rename_i a b c e tail
    split at h
    · exact absurd h (by simp)
    · rename_i hi hhex
      split at h
      · split at h
        · rename_i bs u e1 f1 g1 h1 rest2
          split at h
          · split at h
            · exact absurd h (by simp)
            · rename_i lo hlo
              split at h
              · simp only [Option.some.injEq, Prod.mk.injEq] at h
                obtain ⟨hd, hr⟩ := h
                subst hd; subst hr
                have h1 := textCost_le (utf8 (0x10000 + (hi - 0xD800) * 0x400 + (lo - 0xDC00)))
                have h2 := (utf8_length (0x10000 + (hi - 0xD800) * 0x400 + (lo - 0xDC00))).1
                simp only [List.length_cons]
                omega
              · exact absurd h (by simp)
          · exact absurd h (by simp)
        · exact absurd h (by simp)
      · split at h
        · exact absurd h (by simp)
        · rename_i hnothigh hnotlow
          simp only [Option.some.injEq, Prod.mk.injEq] at h
          obtain ⟨hd, hr⟩ := h
          subst hd; subst hr
          have hlt : hi < 0x10000 := by
            unfold hex4 at hhex
            split at hhex
            · rename_i x y z w hx hy hz hw
              have hb : ∀ (q : Byte) (v : Nat), hexDigit q = some v → v < 16 := by
                intro q v hq
                unfold hexDigit at hq
                have hq255 : q.toNat < 256 := q.toNat_lt_size
                split at hq
                · rename_i hc
                  simp only [Bool.and_eq_true, decide_eq_true_eq, UInt8.le_def,
                    BitVec.le_def] at hc
                  simp only [Option.some.injEq] at hq
                  have : q.toNat ≤ 0x39 := hc.2
                  omega
                · split at hq
                  · rename_i hc
                    simp only [Bool.and_eq_true, decide_eq_true_eq, UInt8.le_def,
                      BitVec.le_def] at hc
                    simp only [Option.some.injEq] at hq
                    have : q.toNat ≤ 0x46 := hc.2
                    omega
                  · split at hq
                    · rename_i hc
                      simp only [Bool.and_eq_true, decide_eq_true_eq, UInt8.le_def,
                        BitVec.le_def] at hc
                      simp only [Option.some.injEq] at hq
                      have : q.toNat ≤ 0x66 := hc.2
                      omega
                    · exact absurd hq (by simp)
              have h1 := hb _ _ hx
              have h2 := hb _ _ hy
              have h3 := hb _ _ hz
              have h4 := hb _ _ hw
              simp only [Option.some.injEq] at hhex
              omega
            · exact absurd hhex (by simp)
          have h1 := textCost_le (utf8 hi)
          have h2 := (utf8_length hi).2 hlt
          simp only [List.length_cons]
          omega
  · exact absurd h (by simp)

theorem decodeEscape_length (s d rest : Str) (h : decodeEscape s = some (d, rest)) :
    textCost d + rest.length ≤ s.length + 1 := by
  unfold decodeEscape at h
  split at h
  · exact absurd h (by simp)
  · rename_i c tail
    have simple : ∀ (b : Byte), some ([b], tail) = some (d, rest) →
        textCost d + rest.length ≤ (c :: tail).length + 1 := by
      intro b hb
      simp only [Option.some.injEq, Prod.mk.injEq] at hb
      obtain ⟨hd, hr⟩ := hb
      subst hd; subst hr
      have := textCost_le [b]
      simp only [List.length_cons, List.length_nil] at this ⊢
      omega
    split at h
    · exact simple _ h
    · split at h
      · exact simple _ h
      · split at h
        · exact simple _ h
        · split at h
          · exact simple _ h
          · split at h
            · exact simple _ h
            · split at h
              · exact simple _ h
              · split at h
                · exact simple _ h
                · split at h
                  · exact simple _ h
                  · split at h
                    · have := decodeUnicode_length tail d rest h
                      simp only [List.length_cons]
                      omega
                    · exact absurd h (by simp)

theorem decodeChars_length : ∀ (fuel : Nat) (s d rest : Str),
    decodeChars fuel s = some (d, rest) → textCost d + rest.length + 1 ≤ s.length
  | 0, _, _, _, h => by simp [decodeChars] at h
  | _ + 1, [], _, _, h => by simp [decodeChars] at h
  | fuel + 1, c :: tail, d, rest, h => by
    rw [decodeChars] at h
    split at h
    · simp only [Option.some.injEq, Prod.mk.injEq] at h
      obtain ⟨hd, hr⟩ := h
      subst hd; subst hr
      simp [textCost_nil]
    · rename_i hquote
      split at h
      · split at h
        · exact absurd h (by simp)
        · rename_i d1 r2 hesc
          split at h
          · exact absurd h (by simp)
          · rename_i ds r3 hrec
            simp only [Option.some.injEq, Prod.mk.injEq] at h
            obtain ⟨hd, hr⟩ := h
            subst hd; subst hr
            have h1 := decodeEscape_length tail d1 r2 hesc
            have h2 := decodeChars_length fuel r2 ds r3 hrec
            rw [textCost_append]
            simp only [List.length_cons]
            omega
      · rename_i hback
        split at h
        · exact absurd h (by simp)
        · split at h
          · exact absurd h (by simp)
          · rename_i ds r2 hrec
            simp only [Option.some.injEq, Prod.mk.injEq] at h
            obtain ⟨hd, hr⟩ := h
            subst hd; subst hr
            have h2 := decodeChars_length fuel tail ds r2 hrec
            have hc : textCost (c :: ds) = textCost ds + 1 := by
              unfold textCost
              have hp : (c == 0x22 || c == 0x5C) = false := by
                simp only [Bool.or_eq_false_iff]
                exact ⟨by simpa using hquote, by simpa using hback⟩
              rw [List.countP_cons_of_neg _ _ (by simp [hp])]
              simp only [List.length_cons]
              omega
            rw [hc]
            simp only [List.length_cons]
            omega

theorem decodeString_length (s d rest : Str) (h : decodeString s = some (d, rest)) :
    textCost d + rest.length + 2 ≤ s.length := by
  unfold decodeString at h
  split at h
  · exact absurd h (by simp)
  · rename_i c tail
    split at h
    · have := decodeChars_length _ _ _ _ h
      simp only [List.length_cons]
      omega
    · exact absurd h (by simp)

theorem length_dropWhile_le (p : Byte → Bool) (s : Str) : (s.dropWhile p).length ≤ s.length :=
  (List.dropWhile_sublist p).length_le

theorem decodeMember_length (s : Str) (kv : Str × Str) (rest : Str)
    (h : decodeMember s = some (kv, rest)) :
    textCost kv.1 + textCost kv.2 + 5 + rest.length ≤ s.length := by
  unfold decodeMember at h
  split at h
  · exact absurd h (by simp)
  · rename_i name r1 hname
    split at h
    · exact absurd h (by simp)
    · rename_i c r2 hcolon
      split at h
      · split at h
        · exact absurd h (by simp)
        · rename_i value r3 hvalue
          simp only [Option.some.injEq, Prod.mk.injEq] at h
          obtain ⟨hkv, hr⟩ := h
          subst hkv; subst hr
          have h1 := decodeString_length _ _ _ hname
          have h2 := decodeString_length _ _ _ hvalue
          have h3 := length_dropWhile_le jsonWs s
          have h4 := length_dropWhile_le jsonWs r1
          have h5 := length_dropWhile_le jsonWs r2
          have h6 := length_dropWhile_le jsonWs r3
          rw [hcolon] at h4
          simp only [List.length_cons] at h4
          show textCost name + textCost value + 5 + (r3.dropWhile jsonWs).length ≤ s.length
          omega
      · exact absurd h (by simp)

theorem decodeMembers_length : ∀ (fuel : Nat) (s : Str) (l : List (Str × Str)),
    decodeMembers fuel s = some l → (l.map memberCost).sum ≤ s.length ∧ l ≠ []
  | 0, _, _, h => by simp [decodeMembers] at h
  | fuel + 1, s, l, h => by
    rw [decodeMembers] at h
    split at h
    · exact absurd h (by simp)
    · rename_i kv r hmem
      have hm := decodeMember_length s kv r hmem
      split at h
      · exact absurd h (by simp)
      · rename_i c r2
        simp only [List.length_cons] at hm
        split at h
        · split at h
          · simp only [Option.some.injEq] at h
            subst h
            simp only [List.map_cons, List.map_nil, List.sum_cons, List.sum_nil, memberCost]
            exact ⟨by omega, by simp⟩
          · exact absurd h (by simp)
        · split at h
          · split at h
            · exact absurd h (by simp)
            · rename_i kvs hrec
              simp only [Option.some.injEq] at h
              subst h
              have ih := (decodeMembers_length fuel r2 kvs hrec).1
              simp only [List.map_cons, List.sum_cons, memberCost]
              exact ⟨by omega, by simp⟩
          · exact absurd h (by simp)

theorem decodeObject_length (s : Str) (l : List (Str × Str))
    (h : decodeObject s = some l) (hl : l ≠ []) :
    (l.map memberCost).sum + 1 ≤ s.length := by
  unfold decodeObject at h
  split at h
  · exact absurd h (by simp)
  · rename_i c r hopen
    split at h
    · split at h
      · exact absurd h (by simp)
      · rename_i d r2 hnext
        split at h
        · split at h
          · simp only [Option.some.injEq] at h
            exact absurd h.symm hl
          · exact absurd h (by simp)
        · have h1 := (decodeMembers_length _ _ _ h).1
          have h2 := length_dropWhile_le jsonWs s
          have h3 := length_dropWhile_le jsonWs r
          rw [hopen] at h2
          rw [hnext] at h3
          simp only [List.length_cons] at h1 h2 h3
          omega
    · exact absurd h (by simp)

/-! ## Values with quotation marks or reverse solidus -/

theorem sum_map_erase_add (f : Str × Str → Nat) (a : Str × Str) :
    ∀ (l : List (Str × Str)), a ∈ l → (l.map f).sum = f a + ((l.erase a).map f).sum
  | [], h => by simp at h
  | x :: xs, h => by
    by_cases hx : x = a
    · subst hx
      simp
    · have ha : a ∈ xs := by
        rcases List.mem_cons.mp h with h1 | h1
        · exact absurd h1.symm hx
        · exact h1
      have ih := sum_map_erase_add f a xs ha
      have hne : (x == a) = false := by simpa using hx
      rw [List.erase_cons, hne]
      simp only [List.map_cons, List.sum_cons, ih, Bool.false_eq_true, if_false]
      omega

theorem sum_map_le_of_subset (f : Str × Str → Nat) :
    ∀ (es l : List (Str × Str)), es.Nodup → (∀ e ∈ es, e ∈ l) →
      (es.map f).sum ≤ (l.map f).sum
  | [], _, _, _ => by simp
  | a :: es, l, hnd, hsub => by
    have ha : a ∈ l := hsub a (List.mem_cons_self _ _)
    have hnd2 := List.nodup_cons.mp hnd
    have hsub2 : ∀ e ∈ es, e ∈ l.erase a := by
      intro e he
      have hne : e ≠ a := fun hc => hnd2.1 (hc ▸ he)
      exact (List.mem_erase_of_ne hne).mpr (hsub e (List.mem_cons_of_mem _ he))
    have ih := sum_map_le_of_subset f es (l.erase a) hnd2.2 hsub2
    rw [sum_map_erase_add f a l ha]
    simp only [List.map_cons, List.sum_cons]
    omega

theorem sum_map_le_pointwise (f g : Str × Str → Nat) (hle : ∀ e, f e ≤ g e)
    (es : List (Str × Str)) : (es.map f).sum ≤ (es.map g).sum := by
  induction es with
  | nil => simp
  | cons y ys ih =>
    simp only [List.map_cons, List.sum_cons]
    have := hle y
    omega

theorem sum_map_lt (f g : Str × Str → Nat) (hle : ∀ e, f e ≤ g e) :
    ∀ (es : List (Str × Str)) (a : Str × Str), a ∈ es → f a < g a →
      (es.map f).sum < (es.map g).sum
  | [], _, h, _ => by simp at h
  | x :: xs, a, h, hlt => by
    have hall := sum_map_le_pointwise f g hle xs
    simp only [List.map_cons, List.sum_cons]
    rcases List.mem_cons.mp h with h1 | h1
    · subst h1
      omega
    · have := sum_map_lt f g hle xs a h1 hlt
      have := hle x
      omega

theorem strLess_irrefl (a : Str) : strLess a a = false := by
  unfold strLess
  have h : strCompare a a = Ordering.eq := by
    induction a with
    | nil => rfl
    | cons x xs ih => simp [strCompare, ih]
  simp [h]

theorem entries_nodup (fields : StdMap) : fields.entries.Nodup := by
  have h := fields.ordered
  unfold KeysAscending at h
  refine List.Pairwise.imp ?_ h
  intro a b hab hc
  rw [hc, strLess_irrefl] at hab
  exact absurd hab (by simp)

theorem renderField_length (kv : Str × Str) :
    (renderField kv).length = kv.1.length + kv.2.length + 5 := by
  unfold renderField
  simp only [List.length_append]
  have h1 : (lit "\"").length = 1 := rfl
  have h2 : (lit "\":\"").length = 3 := rfl
  omega

theorem length_flatten_fields (es : List (Str × Str)) :
    ((es.map renderField).map (fun y => lit "," ++ y)).flatten.length
      = (es.map (fun kv => kv.1.length + kv.2.length + 6)).sum := by
  induction es with
  | nil => rfl
  | cons e es ih =>
    simp only [List.map_cons, List.flatten_cons, List.length_append, List.sum_cons, ih,
      renderField_length]
    have h1 : (lit ",").length = 1 := rfl
    omega

theorem jsonResponse_length (fields : StdMap) (h : fields.entries ≠ []) :
    (jsonResponse fields).length
      = (fields.entries.map (fun kv => kv.1.length + kv.2.length + 6)).sum + 1 := by
  rw [jsonResponse_eq_intercalate]
  cases hes : fields.entries with
  | nil => exact absurd hes h
  | cons e es =>
    rw [List.map_cons, intercalate_cons_eq]
    simp only [List.length_append, length_flatten_fields, renderField_length, List.map_cons,
      List.sum_cons]
    have h1 : (lit "\x7b").length = 1 := rfl
    have h2 : (lit "\x7d").length = 1 := rfl
    omega

theorem intercalate_mem (sep x : Str) : ∀ (xs : List Str), x ∈ xs →
    ∃ pre post, List.intercalate sep xs = pre ++ x ++ post
  | [], h => by simp at h
  | y :: ys, h => by
    rw [intercalate_cons_eq]
    rcases List.mem_cons.mp h with h1 | h1
    · subst h1
      exact ⟨[], (ys.map (fun y => sep ++ y)).flatten, by simp⟩
    · cases ys with
      | nil => simp at h1
      | cons z zs =>
        obtain ⟨pre, post, hpp⟩ := intercalate_mem sep x (z :: zs) h1
        rw [intercalate_cons_eq] at hpp
        refine ⟨y ++ sep ++ pre, post, ?_⟩
        simp only [List.map_cons, List.flatten_cons, List.append_assoc]
        simp only [List.append_assoc] at hpp
        rw [hpp]

/-- C12 as stated fails: a value with two reverse solidus bytes and a value
with quotation marks, each copied as it is, give texts that are valid JSON
objects; they are read back with other members than the map has. -/
theorem unescaped_value_valid_json :
    (0x5C ∈ lit "C:\\\\tmp" ∧
      backslashFields.entries = [(lit "error", lit "C:\\\\tmp")] ∧
      jsonResponse backslashFields = lit "\x7b\"error\":\"C:\\\\tmp\"\x7d" ∧
      wellFormedUtf8 (jsonResponse backslashFields) = true ∧
      decodeObject (jsonResponse backslashFields) = some [(lit "error", lit "C:\\tmp")]) ∧
    (0x22 ∈ lit "a\",\"z\":\"b" ∧
      quoteFields.entries = [(lit "error", lit "a\",\"z\":\"b")] ∧
      jsonResponse quoteFields = lit "\x7b\"error\":\"a\",\"z\":\"b\"\x7d" ∧
      wellFormedUtf8 (jsonResponse quoteFields) = true ∧
      decodeObject (jsonResponse quoteFields)
        = some [(lit "error", lit "a"), (lit "z", lit "b")]) := by
  decide

/-- C12, amended: for every map in which some value contains a quotation
mark or a reverse solidus, `jsonResponse` copies that value as it is between
two quotation marks, and the resulting text is not a JSON encoding of the
map: it is not a JSON object with string members among which every field of
the map occurs (either the text is no such object at all, or it is read back
with other members). -/
theorem jsonResponse_unescaped (fields : StdMap) (kv : Str × Str)
    (hkv : kv ∈ fields.entries) (hbad : 0x22 ∈ kv.2 ∨ 0x5C ∈ kv.2) :
    (∃ pre post, jsonResponse fields
        = pre ++ (lit "\"" ++ kv.1 ++ lit "\":\"" ++ kv.2 ++ lit "\"") ++ post) ∧
    ¬ ∃ l, decodeObject (jsonResponse fields) = some l ∧ ∀ e ∈ fields.entries, e ∈ l := by
  constructor
  · obtain ⟨pre, post, hpp⟩ := intercalate_mem (lit ",") (renderField kv)
      (fields.entries.map renderField) (List.mem_map_of_mem _ hkv)
    refine ⟨lit "\x7b" ++ pre, post ++ lit "\x7d", ?_⟩
    rw [jsonResponse_eq_intercalate, hpp]
    simp only [renderField, List.append_assoc]
  · rintro ⟨l, hdec, hsub⟩
    have hne : fields.entries ≠ [] := List.ne_nil_of_mem hkv
    have hl : l ≠ [] := List.ne_nil_of_mem (hsub kv hkv)
    have h1 := decodeObject_length _ l hdec hl
    rw [jsonResponse_length fields hne] at h1
    have h2 := sum_map_le_of_subset memberCost fields.entries l (entries_nodup fields) hsub
    have h3 := sum_map_lt (fun e => e.1.length + e.2.length + 6) memberCost
      (fun e => by
        have := length_le_textCost e.1
        have := length_le_textCost e.2
        show e.1.length + e.2.length + 6 ≤ textCost e.1 + textCost e.2 + 6
        omega)
      fields.entries kv hkv
      (by
        have := length_le_textCost kv.1
        have := textCost_lt kv.2 hbad
        show kv.1.length + kv.2.length + 6 < textCost kv.1 + textCost kv.2 + 6
        omega)
    omega

theorem jsonResponse_unescaped_witness :
    (lit "error", lit "say \"hi") ∈ oneQuoteFields.entries ∧
    (0x22 ∈ (lit "error", lit "say \"hi").2 ∨ 0x5C ∈ (lit "error", lit "say \"hi").2) ∧
    ((∃ pre post, jsonResponse oneQuoteFields
        = pre ++ (lit "\"" ++ (lit "error", lit "say \"hi").1 ++ lit "\":\""
            ++ (lit "error", lit "say \"hi").2 ++ lit "\"") ++ post) ∧
    ¬ ∃ l, decodeObject (jsonResponse oneQuoteFields) = some l ∧
        ∀ e ∈ oneQuoteFields.entries, e ∈ l) :=
  ⟨by decide, by decide,
    jsonResponse_unescaped oneQuoteFields (lit "error", lit "say \"hi") (by decide) (by decide)⟩

/-! ## Reading back the encoder's output -/

theorem decodeChars_plain : ∀ (v rest : Str) (fuel : Nat),
    v.all plainByte = true → v.length + 1 ≤ fuel →
      decodeChars fuel (v ++ 0x22 :: rest) = some (v, rest)
  | [], rest, fuel, _, hf => by
    obtain ⟨k, rfl⟩ : ∃ k, fuel = k + 1 := ⟨fuel - 1, by simp at hf; omega⟩
    simp [decodeChars]
  | c :: cs, rest, fuel, hv, hf => by
    obtain ⟨k, rfl⟩ : ∃ k, fuel = k + 1 := ⟨fuel - 1, by simp at hf; omega⟩
    simp only [List.all_cons, Bool.and_eq_true] at hv
    obtain ⟨hc, hcs⟩ := hv
    unfold plainByte at hc
    simp only [Bool.and_eq_true, Bool.not_eq_true', decide_eq_false_iff_not, bne_iff_ne,
      ne_eq] at hc
    obtain ⟨⟨hctl, hq⟩, hb⟩ := hc
    have ih := decodeChars_plain cs rest k hcs (by simp at hf; omega)
    have hq2 : (c == 0x22) = false := by simpa using hq
    have hb2 : (c == 0x5C) = false := by simpa using hb
    rw [List.cons_append, decodeChars]
    simp only [hq2, hb2, Bool.false_eq_true, if_false, hctl, ih]

theorem decodeString_plain (v rest : Str) (hv : v.all plainByte = true) :
    decodeString (0x22 :: (v ++ 0x22 :: rest)) = some (v, rest) := by
  unfold decodeString
  simp only [beq_self_eq_true, if_true]
  exact decodeChars_plain v rest _ hv (by simp)

theorem decodeMember_plain (kv : Str × Str) (c : Byte) (tail : Str)
    (hk : kv.1.all plainByte = true) (hv : kv.2.all plainByte = true)
    (hc : jsonWs c = false) :
    decodeMember (renderField kv ++ c :: tail) = some (kv, c :: tail) := by
  have h1 : lit "\"" = [0x22] := rfl
  have h2 : lit "\":\"" = [0x22, 0x3A, 0x22] := rfl
  have hform : renderField kv ++ c :: tail
      = 0x22 :: (kv.1 ++ 0x22 :: (0x3A :: 0x22 :: (kv.2 ++ 0x22 :: (c :: tail)))) := by
    unfold renderField
    rw [h1, h2]
    simp [List.append_assoc]
  have hq : jsonWs 0x22 = false := by decide
  have hcolon : jsonWs 0x3A = false := by decide
  rw [hform]
  unfold decodeMember
  simp only [List.dropWhile_cons, hq, hcolon, hc, Bool.false_eq_true, if_false,
    decodeString_plain _ _ hk, decodeString_plain _ _ hv, beq_self_eq_true, if_true]

theorem decodeMembers_plain : ∀ (es : List (Str × Str)) (e : Str × Str) (fuel : Nat),
    (∀ kv ∈ e :: es, kv.1.all plainByte = true ∧ kv.2.all plainByte = true) →
    es.length + 1 ≤ fuel →
    decodeMembers fuel
      (renderField e ++ (((es.map renderField).map (fun y => lit "," ++ y)).flatten
        ++ lit "\x7d")) = some (e :: es)
  | [], e, fuel, hp, hf => by
    obtain ⟨k, rfl⟩ : ∃ k, fuel = k + 1 := ⟨fuel - 1, by simp at hf; omega⟩
    have he := hp e (List.mem_cons_self _ _)
    have hclose : lit "\x7d" = [0x7D] := rfl
    simp only [List.map_nil, List.flatten_nil, List.nil_append, hclose]
    rw [decodeMembers, decodeMember_plain e 0x7D [] he.1 he.2 (by decide)]
    simp
  | e2 :: es, e, fuel, hp, hf => by
    obtain ⟨k, rfl⟩ : ∃ k, fuel = k + 1 := ⟨fuel - 1, by simp at hf; omega⟩
    have he := hp e (List.mem_cons_self _ _)
    have ih := decodeMembers_plain es e2 k
      (fun kv hkv => hp kv (List.mem_cons_of_mem _ hkv)) (by simp at hf; omega)
    have hcomma : lit "," = [0x2C] := rfl
    simp only [List.map_cons, List.flatten_cons, hcomma, List.cons_append, List.nil_append,
      List.append_assoc] at ih ⊢
    rw [decodeMembers, decodeMember_plain e 0x2C _ he.1 he.2 (by decide)]
    have hne : ((0x2C : Byte) == 0x7D) = false := by decide
    simp only [hne, Bool.false_eq_true, if_false, beq_self_eq_true, if_true, hcomma, ih]

theorem length_le_sum_fields (es : List (Str × Str)) :
    es.length ≤ (es.map (fun kv => kv.1.length + kv.2.length + 6)).sum := by
  induction es with
  | nil => simp
  | cons e es ih =>
    simp only [List.map_cons, List.sum_cons, List.length_cons]
    omega

/-- The reader gives back the entries of every map with plain keys and
values. -/
theorem decodeObject_jsonResponse (fields : StdMap) (hp : PlainFields fields) :
    decodeObject (jsonResponse fields) = some fields.entries := by
  cases hes : fields.entries with
  | nil =>
    have hout : jsonResponse fields = lit "\x7b\x7d" := by
      rw [jsonResponse_eq_intercalate, hes]
      rfl
    rw [hout]
    decide
  | cons e es =>
    have hlen := jsonResponse_length fields (by rw [hes]; simp)
    have hsum := length_le_sum_fields fields.entries
    have hout : jsonResponse fields = 0x7B :: (renderField e
        ++ (((es.map renderField).map (fun y => lit "," ++ y)).flatten ++ lit "\x7d")) := by
      rw [jsonResponse_eq_intercalate, hes, List.map_cons, intercalate_cons_eq, List.map_map]
      have hopen : lit "\x7b" = [0x7B] := rfl
      simp [hopen, List.append_assoc, Function.comp_def]
    have hmem := decodeMembers_plain es e (jsonResponse fields).length
      (fun kv hkv => hp kv (hes ▸ hkv))
      (by rw [hes] at hsum hlen; simp only [List.length_cons] at hsum; omega)
    have hr : renderField e
        ++ (((es.map renderField).map (fun y => lit "," ++ y)).flatten ++ lit "\x7d")
        = 0x22 :: (e.1 ++ lit "\":\"" ++ e.2 ++ lit "\""
            ++ (((es.map renderField).map (fun y => lit "," ++ y)).flatten ++ lit "\x7d")) := by
      have h1 : lit "\"" = [0x22] := rfl
      unfold renderField
      rw [h1]
      simp [List.append_assoc]
    rw [hr] at hmem hout
    have hws1 : jsonWs 0x7B = false := by decide
    have hws2 : jsonWs 0x22 = false := by decide
    have hne : ((0x22 : Byte) == 0x7D) = false := by decide
    unfold decodeObject
    rw [hout] at hmem ⊢
    simp only [List.dropWhile_cons, hws1, hws2, Bool.false_eq_true, if_false,
      beq_self_eq_true, if_true, hne]
    exact hmem

theorem StdMap.eq_of_entries (a b : StdMap) (h : a.entries = b.entries) : a = b := by
  cases a
  cases b
  simp only [StdMap.mk.injEq]
  exact h

theorem wellFormedUtf8_append (a b : Str) (ha : wellFormedUtf8 a = true) :
    wellFormedUtf8 (a ++ b) = wellFormedUtf8 b := by
  unfold wellFormedUtf8 at ha ⊢
  rw [List.foldl_append, beq_iff_eq.mp ha]

theorem wellFormedUtf8_append_true (a b : Str) (ha : wellFormedUtf8 a = true)
    (hb : wellFormedUtf8 b = true) : wellFormedUtf8 (a ++ b) = true := by
  rw [wellFormedUtf8_append a b ha, hb]

theorem wellFormedUtf8_flatten : ∀ (xs : List Str),
    (∀ x ∈ xs, wellFormedUtf8 x = true) → wellFormedUtf8 xs.flatten = true
  | [], _ => rfl
  | x :: xs, h => by
    rw [List.flatten_cons]
    exact wellFormedUtf8_append_true _ _ (h x (List.mem_cons_self _ _))
      (wellFormedUtf8_flatten xs (fun y hy => h y (List.mem_cons_of_mem _ hy)))

theorem wellFormedUtf8_renderField (kv : Str × Str) (hk : wellFormedUtf8 kv.1 = true)
    (hv : wellFormedUtf8 kv.2 = true) : wellFormedUtf8 (renderField kv) = true := by
  unfold renderField
  have h1 : wellFormedUtf8 (lit "\"") = true := by decide
  have h2 : wellFormedUtf8 (lit "\":\"") = true := by decide
  exact wellFormedUtf8_append_true _ _
    (wellFormedUtf8_append_true _ _
      (wellFormedUtf8_append_true _ _ (wellFormedUtf8_append_true _ _ h1 hk) h2) hv) h1

/-- The encoder's output for a map with well-formed UTF-8 keys and values is
well-formed UTF-8. -/
theorem wellFormedUtf8_jsonResponse (fields : StdMap) (hu : Utf8Fields fields) :
    wellFormedUtf8 (jsonResponse fields) = true := by
  have hopen : wellFormedUtf8 (lit "\x7b") = true := by decide
  have hclose : wellFormedUtf8 (lit "\x7d") = true := by decide
  have hcomma : wellFormedUtf8 (lit ",") = true := by decide
  rw [jsonResponse_eq_intercalate]
  refine wellFormedUtf8_append_true _ _ (wellFormedUtf8_append_true _ _ hopen ?_) hclose
  cases hes : fields.entries with
  | nil => rfl
  | cons e es =>
    have hall : ∀ kv ∈ e :: es, wellFormedUtf8 (renderField kv) = true := by
      intro kv hkv
      have := hu kv (hes ▸ hkv)
      exact wellFormedUtf8_renderField kv this.1 this.2
    rw [List.map_cons, intercalate_cons_eq]
    refine wellFormedUtf8_append_true _ _ (hall e (List.mem_cons_self _ _)) ?_
    apply wellFormedUtf8_flatten
    intro x hx
    simp only [List.mem_map] at hx
    obtain ⟨y, ⟨kv, hkv, hy⟩, hxy⟩ := hx
    subst hxy; subst hy
    exact wellFormedUtf8_append_true _ _ hcomma (hall kv (List.mem_cons_of_mem _ hkv))

/-- Every body `handleRequest` sends in a state reached from the initial
state is the encoder's output for a map with plain, well-formed UTF-8 keys
and values. -/
theorem handleRequest_body_plain (clients : List Client) (client : Client) :
    (handleRequest client (serve clients initialState)).1.events
        = client.events ++ [Event.closed] ∨
    ∃ code built, PlainFields built ∧ Utf8Fields built ∧
      (handleRequest client (serve clients initialState)).1.events = client.events ++
        [Event.sent (httpMessage code (lit "application/json") (jsonResponse built)),
          Event.closed] := by
  cases hq : readRequest client with
  | none =>
    left
    simp [handleRequest, hq, close]
  | some mp =>
    right
    obtain ⟨method, path⟩ := mp
    rw [handleRequest_of_readRequest client _ method path hq]
    by_cases hr : IsRoute method path
    · rcases hr with ⟨hm, hp⟩ | ⟨hm, hp⟩
      · subst hm; subst hp
        refine ⟨lit "200 OK", startFields, by decide, by decide, ?_⟩
        rw [route_start, events_close_send]
        have hb : jsonResponse startFields
            = lit "\x7b\"message\":\"Camera started\",\"success\":\"true\"\x7d" := by decide
        rw [hb]
      · subst hm; subst hp
        rw [route_status, events_close_send]
        rcases serve_keeps clients initialState (Or.inl rfl) with hg | hg
        · rw [hg]
          refine ⟨lit "200 OK",
            StdMap.ofList [(lit "status", lit "stopped"), (lit "error", [])],
            by decide, by decide, ?_⟩
          have hb : jsonResponse (StdMap.ofList [(lit "status", lit "stopped"), (lit "error", [])])
              = lit "\x7b\"error\":\"" ++ initialState.last_error ++ lit "\",\"status\":\""
                ++ statusName initialState.camera_state ++ lit "\"\x7d" := by decide
          rw [hb]
        · rw [hg]
          refine ⟨lit "200 OK",
            StdMap.ofList [(lit "status", lit "running"), (lit "error", [])],
            by decide, by decide, ?_⟩
          have hb : jsonResponse (StdMap.ofList [(lit "status", lit "running"), (lit "error", [])])
              = lit "\x7b\"error\":\"" ++ ([] : Str) ++ lit "\",\"status\":\""
                ++ statusName CameraStatus.RUNNING ++ lit "\"\x7d" := by decide
          rw [hb]
    · refine ⟨lit "404 Not Found", notFoundFields, by decide, by decide, ?_⟩
      rw [route_other client _ method path hr, events_close_send]
      have hb : jsonResponse notFoundFields = lit "\x7b\"error\":\"Not Found\"\x7d" := by decide
      rw [hb]

/-- C15 as stated fails: a value made of the byte `0xFF` holds no quotation
mark, no reverse solidus and no control character, yet the output that
copies it is not well-formed UTF-8, so it is not a valid JSON text. -/
theorem invalid_utf8_value_not_json :
    PlainFields invalidByteFields ∧
    invalidByteFields.entries = [(lit "error", [0xFF])] ∧
    jsonResponse invalidByteFields = lit "\x7b\"error\":\"" ++ [0xFF] ++ lit "\"\x7d" ∧
    wellFormedUtf8 (jsonResponse invalidByteFields) = false := by
  decide

/-- C15, amended: for every map whose keys and values are well-formed UTF-8
and hold no quotation mark, no reverse solidus and no byte below `0x20`, the
output of `jsonResponse` is a valid JSON object (well-formed UTF-8 with a
reading) whose members, read back, are exactly the entries of the map; so
`jsonResponse` is injective on such maps; and every body that `handleRequest`
sends in a state reached from the initial state is the output of
`jsonResponse` for such a map. -/
theorem jsonResponse_round_trip (fields other : StdMap) (clients : List Client)
    (client : Client) (hf : PlainFields fields) (hu : Utf8Fields fields)
    (ho : PlainFields other) :
    wellFormedUtf8 (jsonResponse fields) = true ∧
    decodeObject (jsonResponse fields) = some fields.entries ∧
    (jsonResponse fields = jsonResponse other → fields = other) ∧
    ((handleRequest client (serve clients initialState)).1.events
        = client.events ++ [Event.closed] ∨
      ∃ code built, PlainFields built ∧ Utf8Fields built ∧
        (handleRequest client (serve clients initialState)).1.events = client.events ++
          [Event.sent (httpMessage code (lit "application/json") (jsonResponse built)),
            Event.closed]) := by
  refine ⟨wellFormedUtf8_jsonResponse fields hu, decodeObject_jsonResponse fields hf,
    fun heq => ?_, handleRequest_body_plain clients client⟩
  have h1 := decodeObject_jsonResponse fields hf
  have h2 := decodeObject_jsonResponse other ho
  rw [heq, h2] at h1
  exact StdMap.eq_of_entries fields other (Option.some.inj h1).symm

theorem jsonResponse_round_trip_witness :
    PlainFields accentFields ∧ Utf8Fields accentFields ∧ PlainFields notFoundFields ∧
    (wellFormedUtf8 (jsonResponse accentFields) = true ∧
    decodeObject (jsonResponse accentFields) = some accentFields.entries ∧
    (jsonResponse accentFields = jsonResponse notFoundFields → accentFields = notFoundFields) ∧
    ((handleRequest statusClient (serve [startClient] initialState)).1.events
        = statusClient.events ++ [Event.closed] ∨
      ∃ code built, PlainFields built ∧ Utf8Fields built ∧
        (handleRequest statusClient (serve [startClient] initialState)).1.events
          = statusClient.events ++
          [Event.sent (httpMessage code (lit "application/json") (jsonResponse built)),
            Event.closed])) :=
  ⟨by decide, by decide, by decide,
    jsonResponse_round_trip accentFields notFoundFields [startClient] statusClient
      (by decide) (by decide) (by decide)⟩

end Driver
